import Mathlib

/-!
# EKT header state-transition engine (`blockchain/header.go`)

A shallow embedding of the account-state transition code of the EKT ledger:
single transfers (`CheckSubTx`, `Transfer`, `HandleTx`), batch application
(`NewSubTransaction`) and the fee/nonce gate (`CheckFromAndBurnGas`).

Conventions of the embedding:

* `int64` values are mathematical integers; every arithmetic operation of the
  source is followed by `wrap64`, the two's-complement wrap-around.
* A Go operation that can stop the program with a runtime fault (nil pointer
  dereference, write to a nil map, slice bound out of range) returns `Option`;
  `none` is the fault.
* `*types.Account` values are pointers into an explicit heap, so that two
  names for one account (aliasing) behave as they do in Go.
* Go maps are `Option` of an association list: `none` is the nil map.
-/

namespace EKT

/-! ## Machine integers, byte strings, hex keys -/

/-- Two's-complement wrap-around of an integer into the `int64` range. -/
def wrap64 (x : Int) : Int := (x + 2 ^ 63) % 2 ^ 64 - 2 ^ 63

/-- The integer is representable as an `int64`. -/
def inInt64 (x : Int) : Prop := -(2 ^ 63) ≤ x ∧ x < 2 ^ 63

instance (x : Int) : Decidable (inInt64 x) := by unfold inInt64; infer_instance

/-- A Go byte slice (`[]byte`, `types.HexBytes`). -/
abbrev Bytes := List (Fin 256)

/-- One lower-case hexadecimal digit, as `encoding/hex` writes it. -/
def hexDigit (n : Nat) : Char :=
  if n < 10 then Char.ofNat (48 + n) else Char.ofNat (87 + n)

/-- The characters of `hex.EncodeToString`: two digits per byte, high nibble first. -/
def hexChars : Bytes → List Char
  | [] => []
  | b :: bs => hexDigit (b.val / 16) :: hexDigit (b.val % 16) :: hexChars bs

/-- Go `hex.EncodeToString`. -/
def EncodeToString (bs : Bytes) : String := String.mk (hexChars bs)

/-- Go `b[:32]`. A byte slice is modelled by its elements alone, without spare
capacity: on a slice shorter than 32 bytes Go reslices into the spare capacity when
there is enough of it and stops with a fault otherwise, and the model takes the
fault. The results below that name a length are for addresses of 32 bytes or more,
where `b[:32]` is the first 32 bytes. -/
def sliceTo32 (b : Bytes) : Option Bytes :=
  if 32 ≤ b.length then some (b.take 32) else none

/-- Go `b[32:]`; faults when the slice has fewer than 32 bytes. -/
def sliceFrom32 (b : Bytes) : Option Bytes :=
  if 32 ≤ b.length then some (b.drop 32) else none

/-! ## Go maps -/

/-- Lookup in an association list, first match. -/
def amGet {K V : Type} [DecidableEq K] (k : K) : List (K × V) → Option V
  | [] => none
  | (k', v) :: r => if k' = k then some v else amGet k r

/-- Upsert in an association list: replace the entry in place, or append. -/
def amSet {K V : Type} [DecidableEq K] (k : K) (v : V) : List (K × V) → List (K × V)
  | [] => [(k, v)]
  | (k', v') :: r => if k' = k then (k, v) :: r else (k', v') :: amSet k v r

/-- A Go `map[string]V`; `none` is the nil map. -/
abbrev GoMap (V : Type) := Option (List (String × V))

/-- Go `v, ok := m[k]`: `none` when the key is absent (also on a nil map). -/
def mapLookup {V : Type} (m : GoMap V) (k : String) : Option V :=
  match m with
  | none => none
  | some es => amGet k es

/-- Go `m[k]` as an r-value: the zero value when the key is absent. -/
def mapRead {V : Type} (zero : V) (m : GoMap V) (k : String) : V :=
  (mapLookup m k).getD zero

/-- Go `m[k] = v`: a write to the nil map is a runtime fault. -/
def mapWrite {V : Type} (m : GoMap V) (k : String) (v : V) : Option (GoMap V) :=
  match m with
  | none => none
  | some es => some (some (amSet k v es))

/-! ## Data model (`core/types`, `core/userevent`) -/

/-- Modelled from the spec: `types.ContractAccount` is not among the sources; §3
describes it as a nested sub-ledger with its own amount, gas and balances, no
nesting and no nonce. The header code reads and writes exactly these fields. -/
structure ContractAccount where
  Amount : Int
  Gas : Int
  Balances : GoMap Int
deriving DecidableEq

/-- The Go zero value of `ContractAccount`, read for an absent map key. -/
def ContractAccount.zero : ContractAccount := ⟨0, 0, none⟩

/-- Modelled from the spec: `types.Account` is not among the sources; §3 lists
its fields, and the header code uses them under these names. -/
structure Account where
  Address : Bytes
  Amount : Int
  Gas : Int
  Nonce : Int
  Balances : GoMap Int
  Contracts : GoMap ContractAccount
deriving DecidableEq

/-- Modelled from the spec: `types.NewAccount` is not among the sources; §4.4
calls its result "a new zero-balance account", and §3 says balances are created
lazily on first credit, so both maps start nil. -/
def NewAccount (address : Bytes) : Account :=
  { Address := address, Amount := 0, Gas := 0, Nonce := 0, Balances := none, Contracts := none }

/-- Modelled from the spec: `Account.GetNonce` is not among the sources; it is the
getter of the `nonce` field of §3. -/
def Account.GetNonce (account : Account) : Int := account.Nonce

/-- Modelled from the spec: `Account.BurnGas` is not among the sources. §4.5 says
an admitted transaction "deducts `fee` from the sender's gas balance"; §3 says the
nonce is "strictly incremented by exactly 1 per accepted top-level transaction from
this account", and §8 that a replayed nonce is rejected by the gate. The gate calls
nothing else on the account, so the model does both: gas down by the fee, nonce up
by one. §8 also words the fee burn as changing "no other field" than the gas; that
wording and the nonce rule cannot both hold of one helper, and the source does not
hold the helper: what is proved below about the stored nonce holds for this model. -/
def Account.BurnGas (account : Account) (fee : Int) : Account :=
  { account with Gas := wrap64 (account.Gas - fee), Nonce := wrap64 (account.Nonce + 1) }

/-- Modelled from the spec: `userevent.SubTransaction` is not among the sources; §4.4
and §6 give its shape `{from, to, tokenAddress, amount}`, and the header code reads
these four fields. -/
structure SubTransaction where
  From : Bytes
  To : Bytes
  TokenAddress : String
  Amount : Int
deriving DecidableEq

/-- Modelled from the spec: `userevent.Transaction` is not among the sources; §4.5
and §6 give its shape `{from, to, tokenAddress, amount, fee, nonce}`, the fields the
gate reads. -/
structure Transaction where
  From : Bytes
  To : Bytes
  TokenAddress : String
  Amount : Int
  Fee : Int
  Nonce : Int
deriving DecidableEq

/-- Modelled from the spec: the getter `tx.GetFrom()` of the `from` field (§4.5). -/
def Transaction.GetFrom (tx : Transaction) : Bytes := tx.From

/-- Modelled from the spec: the getter `tx.GetNonce()` of the `nonce` field (§4.5). -/
def Transaction.GetNonce (tx : Transaction) : Int := tx.Nonce

/-! ## State store (`MPTPlus.MTP`) -/

/-- Modelled from the spec: the Merkle tree `MPTPlus.MTP` is not among the sources;
§4.1 gives its contract as a key-value mapping with `get`, `contains` and `upsert`.
The account tree is held decoded: the value under a key is the account whose
encoding (`ToBytes`) the tree stores, the codec being assumed to round-trip. -/
abbrev MTP := List (Bytes × Account)

/-- Modelled from the spec: `MTP.GetValue` is the store's `get(key)` of §4.1; `none`
is NotFound. -/
def MTP.GetValue (t : MTP) (key : Bytes) : Option Account := amGet key t

/-- Modelled from the spec: `MTP.ContainsKey` is the store's `contains(key)` of §4.1. -/
def MTP.ContainsKey (t : MTP) (key : Bytes) : Bool := (amGet key t).isSome

/-- Modelled from the spec: `MTP.MustInsert` is the store's `upsert(key, value)` of
§4.1; the write itself is taken to succeed. -/
def MTP.MustInsert (t : MTP) (key : Bytes) (value : Account) : MTP := amSet key value t

/-- The block header of `header.go`. The token tree holds uninterpreted metadata. -/
structure Header where
  Height : Int
  Timestamp : Int
  TotalFee : Int
  PreviousHash : Bytes
  Coinbase : Bytes
  StatTree : MTP
  TokenTree : List (Bytes × Bytes)
  TxHash : Bytes
  ReceiptHash : Bytes
  Version : Int
deriving DecidableEq

/-- `Header.GetAccount`: the decoded account under `address`; `none` is the error
result (with a nil account). -/
def Header.GetAccount (header : Header) (address : Bytes) : Option Account :=
  header.StatTree.GetValue address

/-- `Header.ExistAddress`. -/
def Header.ExistAddress (header : Header) (address : Bytes) : Bool :=
  header.StatTree.ContainsKey address

/-! ## Heap of accounts -/

/-- The accounts allocated so far; a pointer is an index. -/
abbrev Heap := List Account

/-- A `*types.Account`; `none` is the nil pointer. -/
abbrev Ptr := Option Nat

/-- Dereference; `none` is the nil-pointer fault. -/
def deref (heap : Heap) (p : Ptr) : Option Account :=
  match p with
  | none => none
  | some i => heap[i]?

/-- Write through a pointer; `none` is the nil-pointer fault. -/
def store (heap : Heap) (p : Ptr) (a : Account) : Option Heap :=
  match p with
  | none => none
  | some i => if i < heap.length then some (heap.set i a) else none

/-- Allocate a fresh account and return the new heap with its pointer. -/
def alloc (heap : Heap) (a : Account) : Heap × Ptr := (heap ++ [a], some heap.length)

/-! ## Single transfer -/

section Engine

/- The token identifiers `types.EKTAddress` (native token) and `types.GasAddress`
(gas token) are constants of `core/types`; the engine takes them as parameters. -/
variable (EKTAddress GasAddress : String)

/-- The body of `Header.CheckSubTx` (source lines 196-223) on the account `from`
points to. `none` is the fault of `tx.From[32:]` on an address shorter than 32
bytes. The receiver `header` and the argument `to` are not read by the source. -/
def checkPayer (f : Account) (tx : SubTransaction) : Option Bool :=
  if tx.From.length = 32 then
    if tx.TokenAddress = EKTAddress then some (decide (f.Amount > tx.Amount))
    else if tx.TokenAddress = GasAddress then some (decide (f.Gas > tx.Amount))
    else
      if f.Balances ≠ none ∧ mapRead 0 f.Balances tx.TokenAddress > tx.Amount then some true
      else some false
  else if f.Contracts = none then some false
  else
    match sliceFrom32 tx.From with
    | none => none
    | some subAddr =>
      let contractAccount := mapRead ContractAccount.zero f.Contracts (EncodeToString subAddr)
      if tx.TokenAddress = EKTAddress then some (decide (contractAccount.Amount > tx.Amount))
      else if tx.TokenAddress = GasAddress then some (decide (contractAccount.Gas > tx.Amount))
      else
        if contractAccount.Balances ≠ none
            ∧ mapRead 0 contractAccount.Balances tx.TokenAddress > tx.Amount then some true
        else some false

/-- `Header.CheckSubTx`: every branch of the source dereferences `from` first, so a
nil `from` is a fault (`none`). -/
def CheckSubTx (heap : Heap) (fromP : Ptr) (tx : SubTransaction) : Option Bool :=
  match deref heap fromP with
  | none => none
  | some f => checkPayer EKTAddress GasAddress f tx

/-- The debit half of `Header.Transfer` (source lines 141-161) on the account
`from` points to; `none` is a fault (write to a nil map, short address). -/
def debit (f : Account) (tx : SubTransaction) : Option Account :=
  if tx.From.length = 32 then
    if tx.TokenAddress = EKTAddress then
      some { f with Amount := wrap64 (f.Amount - tx.Amount) }
    else if tx.TokenAddress = GasAddress then
      some { f with Gas := wrap64 (f.Gas - tx.Amount) }
    else
      match mapWrite f.Balances tx.TokenAddress
          (wrap64 (mapRead 0 f.Balances tx.TokenAddress - tx.Amount)) with
      | none => none
      | some b => some { f with Balances := b }
  else
    match sliceFrom32 tx.From with
    | none => none
    | some subAddr =>
      let key := EncodeToString subAddr
      let contractAccount := mapRead ContractAccount.zero f.Contracts key
      let debited : Option ContractAccount :=
        if tx.TokenAddress = EKTAddress then
          some { contractAccount with Amount := wrap64 (contractAccount.Amount - tx.Amount) }
        else if tx.TokenAddress = GasAddress then
          some { contractAccount with Gas := wrap64 (contractAccount.Gas - tx.Amount) }
        else
          match mapWrite contractAccount.Balances tx.TokenAddress
              (wrap64 (mapRead 0 contractAccount.Balances tx.TokenAddress - tx.Amount)) with
          | none => none
          | some b => some { contractAccount with Balances := b }
      match debited with
      | none => none
      | some c =>
        match mapWrite f.Contracts key c with
        | none => none
        | some cs => some { f with Contracts := cs }

/-- Lines 170-174 and 184-188 of the source: a nil balances map is replaced by a
fresh map holding a zero entry for the token, then the amount is added. -/
def creditBalances (balances : GoMap Int) (token : String) (amount : Int) : Option (GoMap Int) :=
  let b0 : GoMap Int := if balances = none then some [(token, 0)] else balances
  mapWrite b0 token (wrap64 (mapRead 0 b0 token + amount))

/-- The credit half of `Header.Transfer` (source lines 163-191) on the account `to`
points to; `none` is a fault (write to a nil contracts map, short address). -/
def credit (t : Account) (tx : SubTransaction) : Option Account :=
  if tx.To.length = 32 then
    if tx.TokenAddress = EKTAddress then
      some { t with Amount := wrap64 (t.Amount + tx.Amount) }
    else if tx.TokenAddress = GasAddress then
      some { t with Gas := wrap64 (t.Gas + tx.Amount) }
    else
      match creditBalances t.Balances tx.TokenAddress tx.Amount with
      | none => none
      | some b => some { t with Balances := b }
  else
    match sliceFrom32 tx.To with
    | none => none
    | some subAddr =>
      let key := EncodeToString subAddr
      let contractAccount := mapRead ContractAccount.zero t.Contracts key
      let credited : Option ContractAccount :=
        if tx.TokenAddress = EKTAddress then
          some { contractAccount with Amount := wrap64 (contractAccount.Amount + tx.Amount) }
        else if tx.TokenAddress = GasAddress then
          some { contractAccount with Gas := wrap64 (contractAccount.Gas + tx.Amount) }
        else
          match creditBalances contractAccount.Balances tx.TokenAddress tx.Amount with
          | none => none
          | some b => some { contractAccount with Balances := b }
      match credited with
      | none => none
      | some c =>
        match mapWrite t.Contracts key c with
        | none => none
        | some cs => some { t with Contracts := cs }

/-- `Header.Transfer`: debit the payer through `from`, then credit the payee
through `to` (which sees the debit when both point to one account); it returns
`true` whenever it returns. -/
def Transfer (heap : Heap) (fromP toP : Ptr) (tx : SubTransaction) : Option (Bool × Heap) :=
  match deref heap fromP with
  | none => none
  | some f =>
    match debit EKTAddress GasAddress f tx with
    | none => none
    | some f1 =>
      match store heap fromP f1 with
      | none => none
      | some heap1 =>
        match deref heap1 toP with
        | none => none
        | some t =>
          match credit EKTAddress GasAddress t tx with
          | none => none
          | some t1 =>
            match store heap1 toP t1 with
            | none => none
            | some heap2 => some (true, heap2)

/-- `Header.HandleTx`: check, then transfer. -/
def HandleTx (heap : Heap) (fromP toP : Ptr) (tx : SubTransaction) : Option (Bool × Heap) :=
  match CheckSubTx EKTAddress GasAddress heap fromP tx with
  | none => none
  | some false => some (false, heap)
  | some true => Transfer EKTAddress GasAddress heap fromP toP tx

/-! ## Batch application -/

/-- The working-copy map `m` of `NewSubTransaction` (made with `make`, never nil). -/
abbrev WorkMap := List (String × Ptr)

/-- How one pass through the loop body ends. -/
inductive Iter (σ : Type) where
  | fault : Iter σ
  | returnFalse : Iter σ
  | next (s : σ) : Iter σ
deriving DecidableEq

/-- Lines 100-118 of the source: the payee working copy when the map has none.
`none` is the early `return false`. -/
def resolveTo (header : Header) (tx : SubTransaction) (to32 : Bytes) : Option Account :=
  let found : Option Account :=
    match header.GetAccount to32 with
    | some a => some a
    | none => if tx.To.length = 64 then none else some (NewAccount tx.To)
  match found with
  | none => none
  | some _to =>
    if tx.To.length = 64 then
      if _to.Contracts = none then none
      else if (mapLookup _to.Contracts (EncodeToString (tx.To.drop 32))).isSome then some _to
      else none
    else some _to

/-- One iteration of the loop of `NewSubTransaction` (source lines 95-124). -/
def subTxStep (header : Header) (s : Heap × WorkMap) (tx : SubTransaction) :
    Iter (Heap × WorkMap) :=
  match sliceTo32 tx.From, sliceTo32 tx.To with
  | none, _ => Iter.fault
  | _, none => Iter.fault
  | some from32, some to32 =>
    let keyFrom := EncodeToString from32
    let keyTo := EncodeToString to32
    let heap := s.1
    let m := s.2
    let hp1 : Heap × Ptr :=
      match amGet keyFrom m with
      | some p => (heap, p)
      | none =>
        match header.GetAccount from32 with
        | some a => alloc heap a
        | none => (heap, none)
    let hp2 : Option (Heap × Ptr) :=
      match amGet keyTo m with
      | some p => some (hp1.1, p)
      | none =>
        match resolveTo header tx to32 with
        | none => none
        | some _to => some (alloc hp1.1 _to)
    match hp2 with
    | none => Iter.returnFalse
    | some (heap2, toP) =>
      match HandleTx EKTAddress GasAddress heap2 hp1.2 toP tx with
      | none => Iter.fault
      | some (false, _) => Iter.returnFalse
      | some (true, heap3) => Iter.next (heap3, amSet keyTo toP (amSet keyFrom hp1.2 m))

/-- The `for _, tx := range txs` loop. -/
def subTxLoop (header : Header) : Heap × WorkMap → List SubTransaction → Iter (Heap × WorkMap)
  | s, [] => Iter.next s
  | s, tx :: txs =>
    match subTxStep EKTAddress GasAddress header s tx with
    | Iter.fault => Iter.fault
    | Iter.returnFalse => Iter.returnFalse
    | Iter.next s1 => subTxLoop header s1 txs

/-- The final loop `for _, account := range m`: every working copy is written to
the tree under its own `Address`, here in the order of the list. -/
def flush (heap : Heap) : WorkMap → MTP → Option MTP
  | [], t => some t
  | (_, p) :: r, t =>
    match deref heap p with
    | none => none
    | some account => flush heap r (t.MustInsert account.Address account)

/-- `Header.NewSubTransaction`: the returned pair is the boolean result and the
header after the call; `none` is a runtime fault. -/
def NewSubTransaction (header : Header) (txs : List SubTransaction) : Option (Bool × Header) :=
  match subTxLoop EKTAddress GasAddress header ([], []) txs with
  | Iter.fault => none
  | Iter.returnFalse => some (false, header)
  | Iter.next (heap, m) =>
    match flush heap m header.StatTree with
    | none => none
    | some t => some (true, { header with StatTree := t })

/-! ## Fee/nonce gate -/

/-- The `switch tx.TokenAddress` of `CheckFromAndBurnGas` (source lines 237-250):
true when one of its cases takes the `return false`. -/
def insufficientBalance (account : Account) (tx : Transaction) : Bool :=
  if tx.TokenAddress = EKTAddress then decide (account.Amount < tx.Amount)
  else if tx.TokenAddress = GasAddress then decide (account.Gas < wrap64 (tx.Amount + tx.Fee))
  else decide (account.Balances = none ∨ mapRead 0 account.Balances tx.TokenAddress < tx.Amount)

/-- `Header.CheckFromAndBurnGas`: the returned pair is the boolean result and the
header after the call. -/
def CheckFromAndBurnGas (header : Header) (tx : Transaction) : Bool × Header :=
  if tx.From.length ≠ 32 then (false, header)
  else if tx.To.length ≠ 32 ∧ tx.To.length ≠ 64 then (false, header)
  else
    match header.GetAccount tx.GetFrom with
    | none => (false, header)
    | some account =>
      if account.Gas < tx.Fee ∨ wrap64 (account.GetNonce + 1) ≠ tx.GetNonce then (false, header)
      else if insufficientBalance EKTAddress GasAddress account tx then (false, header)
      else
        let burnt := account.BurnGas tx.Fee
        (true, { header with StatTree := header.StatTree.MustInsert burnt.Address burnt })

/-- `Header.CheckTransfer`. -/
def CheckTransfer (header : Header) (tx : Transaction) : Bool × Header :=
  CheckFromAndBurnGas EKTAddress GasAddress header tx

/-! ## Header construction, miner settlement, decimals -/

/-- The header format constant `HEADER_VERSION_PURE_MTP`. -/
def HEADER_VERSION_PURE_MTP : Int := 0

/-- The header format constant `HEADER_VERSION_MIXED`. -/
def HEADER_VERSION_MIXED : Int := 1

/-- Modelled from the spec: `MPTPlus.NewMTP` is not among the sources; §6 says a
tree is constructible empty. -/
def NewMTP {V : Type} : List (Bytes × V) := []

/-- Modelled from the spec: the field `Root` of `MPTPlus.MTP` is not among the
sources; §6 calls it the identifier of the tree's current content, so the model
takes the content itself for the root. -/
def Root {V : Type} (t : List (Bytes × V)) : List (Bytes × V) := t

/-- Modelled from the spec: `MPTPlus.MTP_Tree` is not among the sources; §6 says a
tree is constructible pinned to a given root, sharing the content it identifies. -/
def MTP_Tree {V : Type} (root : List (Bytes × V)) : List (Bytes × V) := root

/-- `GenesisHeader`: a height-0 header over a fresh tree into which every account
is inserted under its own address, in the order of the list. -/
def GenesisHeader (accounts : List Account) : Header :=
  let header : Header :=
    { Height := 0, TotalFee := 0, PreviousHash := [], Timestamp := 0, Coinbase := [],
      StatTree := NewMTP, TokenTree := NewMTP, TxHash := [], ReceiptHash := [],
      Version := HEADER_VERSION_MIXED }
  accounts.foldl
    (fun h account => { h with StatTree := h.StatTree.MustInsert account.Address account })
    header

/-- `NewHeader`: the header that follows `last`. -/
def NewHeader (last : Header) (packTime : Int) (parentHash coinbase : Bytes) : Header :=
  { Height := wrap64 (last.Height + 1), Timestamp := packTime, TotalFee := 0,
    PreviousHash := parentHash, Coinbase := coinbase,
    StatTree := MTP_Tree (Root last.StatTree), TokenTree := MTP_Tree (Root last.TokenTree),
    TxHash := [], ReceiptHash := [], Version := HEADER_VERSION_MIXED }

/-- `Header.UpdateMiner`: the coinbase account (a new one when it is not stored)
gets the total fee added to its gas and is written under the coinbase address. -/
def UpdateMiner (header : Header) : Header :=
  let account : Account :=
    match header.GetAccount header.Coinbase with
    | some a => a
    | none => NewAccount header.Coinbase
  let paid : Account := { account with Gas := wrap64 (account.Gas + header.TotalFee) }
  { header with StatTree := header.StatTree.MustInsert header.Coinbase paid }

/-- The loop of `Decimals` from counter `i` and accumulator `result`. The counter
is below `decimal` when it is incremented, so `i++` never wraps. -/
def decimalsLoop (decimal i result : Int) : Int :=
  if i < decimal then decimalsLoop decimal (i + 1) (wrap64 (result * 10)) else result
termination_by (decimal - i).toNat
decreasing_by omega

/-- `Decimals`: ten multiplied `decimal` times into 1, in `int64` arithmetic. -/
def Decimals (decimal : Int) : Int := decimalsLoop decimal 0 1

/-! ## Notions used to state the properties -/

/-- The balance one ledger (an owner account or a sub-account) holds of a token:
the amount field for the native token, the gas field for the gas token, the entry
of the balances map otherwise, an absent entry of a present map counting as 0.
`none` when the balances map itself is nil. -/
def slotOf (amount gasBalance : Int) (balances : GoMap Int) (token : String) : Option Int :=
  if token = EKTAddress then some amount
  else if token = GasAddress then some gasBalance
  else
    match balances with
    | none => none
    | some es => some ((amGet token es).getD 0)

/-- The payer slot of §4.4 step 1: the owner account for a 32-byte `from`, the
sub-account named by bytes 32.. of `from` otherwise; `none` when there is no such
sub-account or balances map. -/
def payerSlot (f : Account) (tx : SubTransaction) : Option Int :=
  if tx.From.length = 32 then slotOf EKTAddress GasAddress f.Amount f.Gas f.Balances tx.TokenAddress
  else
    match mapLookup f.Contracts (EncodeToString (tx.From.drop 32)) with
    | none => none
    | some c => slotOf EKTAddress GasAddress c.Amount c.Gas c.Balances tx.TokenAddress

/-- The owner-level payee slot for a 32-byte `to`, an absent generic balance
(also a nil balances map) counting as 0. -/
def ownerSlot (t : Account) (token : String) : Int :=
  if token = EKTAddress then t.Amount
  else if token = GasAddress then t.Gas
  else mapRead 0 t.Balances token

/-- Account `b` is account `a` but for the owner-level slot of `token`: address,
nonce and contracts are equal, and so are the native amount, the gas and every
balances entry other than the one the token selects. -/
def agreeOffSlot (a b : Account) (token : String) : Prop :=
  b.Address = a.Address ∧ b.Nonce = a.Nonce ∧ b.Contracts = a.Contracts ∧
  (token ≠ EKTAddress → b.Amount = a.Amount) ∧
  (token = EKTAddress ∨ token ≠ GasAddress → b.Gas = a.Gas) ∧
  (token = EKTAddress ∨ token = GasAddress → b.Balances = a.Balances) ∧
  (∀ k, k ≠ token → mapLookup b.Balances k = mapLookup a.Balances k)

/-- The state tree is well formed: the account stored under a key carries that
key as its address. Every write of the header code is made under the account's
own `Address`. -/
def MTP.WellFormed (t : MTP) : Prop :=
  ∀ key account, t.GetValue key = some account → account.Address = key

/-- The balance condition of the fee/nonce gate as §4.5 words it: the native
amount covers `tx.Amount`; for the gas token the gas covers `tx.Amount + tx.Fee`
(an `int64` sum); for any other token the balances map is present and its entry
(0 when absent) covers `tx.Amount`. -/
def gateCovers (sender : Account) (tx : Transaction) : Prop :=
  if tx.TokenAddress = EKTAddress then sender.Amount ≥ tx.Amount
  else if tx.TokenAddress = GasAddress then sender.Gas ≥ wrap64 (tx.Amount + tx.Fee)
  else sender.Balances ≠ none ∧ mapRead 0 sender.Balances tx.TokenAddress ≥ tx.Amount

instance (sender : Account) (tx : Transaction) :
    Decidable (gateCovers EKTAddress GasAddress sender tx) := by
  unfold gateCovers; infer_instance

/-- The admission conditions of §4.5 in full: address lengths, an existing sender,
gas covering the fee, the next nonce, and the balance condition. -/
def Admissible (header : Header) (tx : Transaction) : Prop :=
  tx.From.length = 32 ∧ (tx.To.length = 32 ∨ tx.To.length = 64) ∧
  ∃ sender, header.GetAccount tx.From = some sender ∧ sender.Gas ≥ tx.Fee ∧
    tx.Nonce = wrap64 (sender.Nonce + 1) ∧ gateCovers EKTAddress GasAddress sender tx

/-- A balance that is not negative, as an `int64` value. -/
def balanceOk (x : Int) : Prop := 0 ≤ x ∧ x < 2 ^ 63

/-- Every entry of a balances map is a non-negative balance. -/
def balancesOk (m : GoMap Int) : Prop := ∀ k v, mapLookup m k = some v → balanceOk v

/-- Amount, gas and every balances entry of a sub-account are non-negative. -/
def ContractAccount.nonNegative (c : ContractAccount) : Prop :=
  balanceOk c.Amount ∧ balanceOk c.Gas ∧ balancesOk c.Balances

/-- Amount, gas, every balances entry and every balance of every sub-account of
an account are non-negative. -/
def Account.nonNegative (a : Account) : Prop :=
  balanceOk a.Amount ∧ balanceOk a.Gas ∧ balancesOk a.Balances ∧
  ∀ k c, mapLookup a.Contracts k = some c → c.nonNegative

/-- The balance the credit half of `Transfer` adds to: the owner-level slot for a
32-byte `to`, the slot of the sub-account named by bytes 32.. of `to` otherwise
(absent entries counting as 0). -/
def payeeSlot (t : Account) (tx : SubTransaction) : Int :=
  if tx.To.length = 32 then ownerSlot EKTAddress GasAddress t tx.TokenAddress
  else
    if tx.TokenAddress = EKTAddress then
      (mapRead ContractAccount.zero t.Contracts (EncodeToString (tx.To.drop 32))).Amount
    else if tx.TokenAddress = GasAddress then
      (mapRead ContractAccount.zero t.Contracts (EncodeToString (tx.To.drop 32))).Gas
    else
      mapRead 0 (mapRead ContractAccount.zero t.Contracts
        (EncodeToString (tx.To.drop 32))).Balances tx.TokenAddress

/-- The credit of the transfer does not overflow `int64`: the payee slot, as it
stands when the credit is made (after the debit), plus the amount stays below
`2 ^ 63`. -/
def creditFits (heap : Heap) (fromP toP : Ptr) (tx : SubTransaction) : Prop :=
  ∀ f f1 heap1 t0, deref heap fromP = some f → debit EKTAddress GasAddress f tx = some f1 →
    store heap fromP f1 = some heap1 → deref heap1 toP = some t0 →
    payeeSlot EKTAddress GasAddress t0 tx + tx.Amount < 2 ^ 63

/-- The native-token supply held by one account and its sub-accounts. -/
def Account.nativeSupply (a : Account) : Int :=
  a.Amount + (match a.Contracts with
    | none => 0
    | some cs => (cs.map (fun e => e.2.Amount)).sum)

/-- The native-token supply of a state tree. -/
def MTP.nativeSupply (t : MTP) : Int := (t.map (fun e => e.2.nativeSupply)).sum

/-- Every working copy in the map is a live account whose address hex-encodes to
the key it is filed under. -/
def WorkMapOk (heap : Heap) (m : WorkMap) : Prop :=
  ∀ k p, amGet k m = some p → ∃ a, deref heap p = some a ∧ EncodeToString a.Address = k

/-- The owner addresses a batch names: the first 32 bytes of every `from` and `to`. -/
def namedOwners (txs : List SubTransaction) : List Bytes :=
  txs.flatMap (fun tx => [tx.From.take 32, tx.To.take 32])

/-- Lines 95 and 97-99 of the source: the payer working copy, from the map or
freshly read from the tree (nil when the tree has none). -/
def fromCopy (header : Header) (heap : Heap) (m : WorkMap) (from32 : Bytes) : Heap × Ptr :=
  match amGet (EncodeToString from32) m with
  | some p => (heap, p)
  | none =>
    match header.GetAccount from32 with
    | some a => alloc heap a
    | none => (heap, none)

/-- Lines 96 and 100-118 of the source: the payee working copy, from the map or
freshly resolved; `none` is the early `return false`. -/
def toCopy (header : Header) (heap : Heap) (m : WorkMap) (tx : SubTransaction)
    (to32 : Bytes) : Option (Heap × Ptr) :=
  match amGet (EncodeToString to32) m with
  | some p => some (heap, p)
  | none =>
    match resolveTo header tx to32 with
    | none => none
    | some _to => some (alloc heap _to)

/-- One step of the sequential reading of a batch of plain transfers: `HandleTx`
on the payer and the payee as they stand in the running account state (the payee
being a new account when the state has none), the two results written back.
`none` when the payer is not in the state or `HandleTx` does not return true. -/
def seqStep (st : MTP) (tx : SubTransaction) : Option MTP :=
  match st.GetValue tx.From with
  | none => none
  | some f =>
    match HandleTx EKTAddress GasAddress
        [f, (st.GetValue tx.To).getD (NewAccount tx.To)] (some 0) (some 1) tx with
    | some (true, [f1, t1]) => some ((st.MustInsert tx.From f1).MustInsert tx.To t1)
    | _ => none

/-- The sequential reading of a batch: `seqStep` folded in input order over the
running account state; `none` as soon as one step does not succeed. -/
def seqApply : MTP → List SubTransaction → Option MTP
  | st, [] => some st
  | st, tx :: txs =>
    match seqStep EKTAddress GasAddress st tx with
    | none => none
    | some st1 => seqApply st1 txs

/-- The working copies agree with a running account state: the map has distinct
keys, every working copy is live, filed under the hex key of its address and read
by the state at that address, and an address without working copy reads in the
state as in the header's tree. -/
def SimOk (header : Header) (heap : Heap) (m : WorkMap) (st : MTP) : Prop :=
  (m.map Prod.fst).Nodup ∧
  (∀ k p, amGet k m = some p →
    ∃ a, deref heap p = some a ∧ EncodeToString a.Address = k ∧
      st.GetValue a.Address = some a) ∧
  (∀ address, amGet (EncodeToString address) m = none →
    st.GetValue address = header.GetAccount address)

/-! ## Fixtures for the concrete instances -/

/-- A 32-byte address made of one repeated byte. -/
def addr (b : Fin 256) : Bytes := List.replicate 32 b

/-- An account with the given native amount, gas and nonce, and no maps. -/
def plainAccount (a : Bytes) (amount gasBalance nonce : Int) : Account :=
  { Address := a, Amount := amount, Gas := gasBalance, Nonce := nonce,
    Balances := none, Contracts := none }

/-- A header over the given state tree. -/
def headerOf (t : MTP) : Header :=
  { Height := 1, Timestamp := 0, TotalFee := 0, PreviousHash := [], Coinbase := [],
    StatTree := t, TokenTree := [], TxHash := [], ReceiptHash := [], Version := 1 }

/-- The sample state of the batch example: A holds 100 and B holds 5 of the
native token. -/
def sampleHeader : Header :=
  headerOf [(addr 1, plainAccount (addr 1) 100 0 0), (addr 2, plainAccount (addr 2) 5 0 0)]

/-- The sample state of the gate examples: one account with amount 10, gas 2 and
nonce 5. -/
def gateHeader : Header := headerOf [(addr 1, plainAccount (addr 1) 10 2 5)]

/-- A native-token transaction from the sample sender. -/
def gateTx (amount fee nonce : Int) : Transaction :=
  { From := addr 1, To := addr 2, TokenAddress := "ekt", Amount := amount, Fee := fee,
    Nonce := nonce }

/-- An owner account holding nothing, with a contracts map that is present but
has no entry. -/
def contractOwner (a : Bytes) (amount : Int) : Account :=
  { plainAccount a amount 0 0 with Contracts := some [] }

/-- The sample state of the destination example: A holds 100 of the native token,
B holds nothing and has an empty contracts map. -/
def contractHeader : Header :=
  headerOf [(addr 1, plainAccount (addr 1) 100 0 0), (addr 2, contractOwner (addr 2) 0)]

/-! ## Lemmas on integers, maps and the heap -/

theorem wrap64_of_inInt64 {x : Int} (h : inInt64 x) : wrap64 x = x := by
  unfold inInt64 at h
  unfold wrap64
  omega

theorem wrap64_succ_ne (n : Int) : wrap64 (wrap64 (n + 1) + 1) ≠ wrap64 (n + 1) := by
  unfold wrap64
  omega

theorem amGet_amSet_self {K V : Type} [DecidableEq K] (k : K) (v : V) (l : List (K × V)) :
    amGet k (amSet k v l) = some v := by
  induction l with
  | nil => simp [amSet, amGet]
  | cons e r ih =>
    obtain ⟨k1, v1⟩ := e
    by_cases h : k1 = k
    · simp [amSet, amGet, h]
    · simp [amSet, amGet, h, ih]

theorem amGet_amSet_ne {K V : Type} [DecidableEq K] (k k2 : K) (v : V) (l : List (K × V))
    (hne : k ≠ k2) : amGet k2 (amSet k v l) = amGet k2 l := by
  induction l with
  | nil => simp [amSet, amGet, hne]
  | cons e r ih =>
    obtain ⟨k1, v1⟩ := e
    by_cases h : k1 = k
    · subst h
      simp [amSet, amGet, hne]
    · by_cases h2 : k1 = k2
      · subst h2
        simp [amSet, amGet, h]
      · simp [amSet, amGet, h, h2, ih]

theorem store_of_deref {heap : Heap} {p : Ptr} {f : Account} (h : deref heap p = some f)
    (a : Account) : ∃ heap1, store heap p a = some heap1 := by
  cases p with
  | none => simp [deref] at h
  | some i =>
    have hi : i < heap.length := by
      by_contra hn
      simp [deref, List.getElem?_eq_none (Nat.le_of_not_lt hn)] at h
    exact ⟨heap.set i a, by simp [store, hi]⟩

theorem deref_store_same {heap heap1 : Heap} {p : Ptr} {a : Account}
    (h : store heap p a = some heap1) : deref heap1 p = some a := by
  cases p with
  | none => simp [store] at h
  | some i =>
    by_cases hi : i < heap.length
    · simp only [store, hi, if_true, Option.some.injEq] at h
      subst h
      simp [deref, hi]
    · simp [store, hi] at h

theorem deref_store_other {heap heap1 : Heap} {p q : Ptr} {a : Account}
    (h : store heap p a = some heap1) (hne : q ≠ p) : deref heap1 q = deref heap q := by
  cases p with
  | none => simp [store] at h
  | some i =>
    by_cases hi : i < heap.length
    · simp only [store, hi, if_true, Option.some.injEq] at h
      subst h
      cases q with
      | none => rfl
      | some j =>
        have hij : i ≠ j := fun e => hne (by rw [e])
        simp [deref, List.getElem?_set_ne hij]
    · simp [store, hi] at h

/-! ## The single transfer: check, debit, credit -/

theorem creditBalances_isSome (balances : GoMap Int) (token : String) (amount : Int) :
    ∃ b, creditBalances balances token amount = some (some b) := by
  cases balances with
  | none => simp [creditBalances, mapWrite]
  | some es => simp [creditBalances, mapWrite]

/-- With a 32- or 64-byte `from` and an existing payer slot holding `b`, the check
is exactly the strict comparison `b > tx.Amount`. -/
theorem checkPayer_of_slot {f : Account} {tx : SubTransaction} {b : Int}
    (hlen : tx.From.length = 32 ∨ tx.From.length = 64)
    (hslot : payerSlot EKTAddress GasAddress f tx = some b) :
    checkPayer EKTAddress GasAddress f tx = some (decide (b > tx.Amount)) := by
  rcases hlen with h32 | h64
  · simp only [payerSlot, h32, if_true, slotOf] at hslot
    simp only [checkPayer, h32, if_true]
    by_cases he : tx.TokenAddress = EKTAddress
    · simp_all
    · by_cases hg : tx.TokenAddress = GasAddress
      · simp_all
      · simp only [he, hg, if_false] at hslot ⊢
        cases hb : f.Balances with
        | none => simp [hb] at hslot
        | some es =>
          simp only [hb, Option.some.injEq] at hslot
          subst hslot
          by_cases hc : (amGet tx.TokenAddress es).getD 0 > tx.Amount
          · simp [mapRead, mapLookup, hc]
          · simp [mapRead, mapLookup, hc]
  · have hne : ¬ tx.From.length = 32 := by omega
    have hs : sliceFrom32 tx.From = some (tx.From.drop 32) := by simp [sliceFrom32, h64]
    simp only [payerSlot, hne, if_false] at hslot
    cases hcs : f.Contracts with
    | none => simp [hcs, mapLookup] at hslot
    | some cs =>
      simp only [hcs, mapLookup] at hslot
      cases hc : amGet (EncodeToString (tx.From.drop 32)) cs with
      | none => simp [hc] at hslot
      | some c =>
        simp only [hc, slotOf] at hslot
        have hr : mapRead ContractAccount.zero (some cs) (EncodeToString (tx.From.drop 32)) = c := by
          simp [mapRead, mapLookup, hc]
        simp only [checkPayer, hne, if_false, hcs, hs, hr]
        by_cases he : tx.TokenAddress = EKTAddress
        · simp_all
        · by_cases hg : tx.TokenAddress = GasAddress
          · simp_all
          · simp only [he, hg, if_false] at hslot ⊢
            cases hb : c.Balances with
            | none => simp [hb] at hslot
            | some es =>
              simp only [hb, Option.some.injEq] at hslot
              subst hslot
              by_cases hc2 : (amGet tx.TokenAddress es).getD 0 > tx.Amount
              · simp [mapRead, mapLookup, hc2]
              · simp [mapRead, mapLookup, hc2]

/-- A debit that returns leaves the contracts map nil exactly when it was nil. -/
theorem debit_contracts {f f1 : Account} {tx : SubTransaction}
    (h : debit EKTAddress GasAddress f tx = some f1) :
    (f1.Contracts = none ↔ f.Contracts = none) := by
  unfold debit at h
  by_cases h32 : tx.From.length = 32
  · simp only [h32, if_true] at h
    by_cases he : tx.TokenAddress = EKTAddress
    · simp only [if_pos he, Option.some.injEq] at h
      subst h; rfl
    · by_cases hg : tx.TokenAddress = GasAddress
      · simp only [if_neg he, if_pos hg, Option.some.injEq] at h
        subst h; rfl
      · simp only [if_neg he, if_neg hg] at h
        cases hw : mapWrite f.Balances tx.TokenAddress
            (wrap64 (mapRead 0 f.Balances tx.TokenAddress - tx.Amount)) with
        | none => simp [hw] at h
        | some b =>
          simp only [hw, Option.some.injEq] at h
          subst h; rfl
  · simp only [h32, if_false] at h
    cases hs : sliceFrom32 tx.From with
    | none => simp [hs] at h
    | some subAddr =>
      simp only [hs] at h
      cases hcs : f.Contracts with
      | none =>
        simp only [hcs, mapWrite] at h
        split at h <;> simp at h
      | some cs =>
        simp only [hcs, mapWrite] at h
        split at h
        · simp at h
        · simp only [Option.some.injEq] at h
          subst h
          simp

/-- With a 32- or 64-byte `from` and an existing payer slot, the debit returns. -/
theorem debit_of_slot {f : Account} {tx : SubTransaction} {b : Int}
    (hlen : tx.From.length = 32 ∨ tx.From.length = 64)
    (hslot : payerSlot EKTAddress GasAddress f tx = some b) :
    ∃ f1, debit EKTAddress GasAddress f tx = some f1 := by
  rcases hlen with h32 | h64
  · simp only [payerSlot, h32, if_true, slotOf] at hslot
    simp only [debit, h32, if_true]
    by_cases he : tx.TokenAddress = EKTAddress
    · simp only [if_pos he]
      exact ⟨_, rfl⟩
    · by_cases hg : tx.TokenAddress = GasAddress
      · simp only [if_neg he, if_pos hg]
        exact ⟨_, rfl⟩
      · simp only [if_neg he, if_neg hg] at hslot ⊢
        cases hb : f.Balances with
        | none => simp [hb] at hslot
        | some es => simp [mapWrite]
  · have hne : ¬ tx.From.length = 32 := by omega
    have hs : sliceFrom32 tx.From = some (tx.From.drop 32) := by simp [sliceFrom32, h64]
    simp only [payerSlot, hne, if_false] at hslot
    cases hcs : f.Contracts with
    | none => simp [hcs, mapLookup] at hslot
    | some cs =>
      simp only [hcs, mapLookup] at hslot
      cases hc : amGet (EncodeToString (tx.From.drop 32)) cs with
      | none => simp [hc] at hslot
      | some c =>
        simp only [hc, slotOf] at hslot
        have hr : mapRead ContractAccount.zero (some cs) (EncodeToString (tx.From.drop 32)) = c := by
          simp [mapRead, mapLookup, hc]
        simp only [debit, hne, if_false, hs, hcs, hr]
        by_cases he : tx.TokenAddress = EKTAddress
        · simp only [if_pos he, mapWrite]
          exact ⟨_, rfl⟩
        · by_cases hg : tx.TokenAddress = GasAddress
          · simp only [if_neg he, if_pos hg, mapWrite]
            exact ⟨_, rfl⟩
          · simp only [if_neg he, if_neg hg] at hslot ⊢
            cases hb : c.Balances with
            | none => simp [hb] at hslot
            | some es =>
              simp only [mapWrite]
              exact ⟨_, rfl⟩

/-- The credit returns for a 32-byte `to`, and for a 64-byte `to` whose owner has
a contracts map. -/
theorem credit_of_ok {t : Account} {tx : SubTransaction}
    (hto : tx.To.length = 32 ∨ (tx.To.length = 64 ∧ t.Contracts ≠ none)) :
    ∃ t1, credit EKTAddress GasAddress t tx = some t1 := by
  rcases hto with h32 | ⟨h64, hcs⟩
  · simp only [credit, h32, if_true]
    by_cases he : tx.TokenAddress = EKTAddress
    · simp only [if_pos he]
      exact ⟨_, rfl⟩
    · by_cases hg : tx.TokenAddress = GasAddress
      · simp only [if_neg he, if_pos hg]
        exact ⟨_, rfl⟩
      · obtain ⟨b, hb⟩ := creditBalances_isSome t.Balances tx.TokenAddress tx.Amount
        simp only [if_neg he, if_neg hg, hb]
        exact ⟨_, rfl⟩
  · have hne : ¬ tx.To.length = 32 := by omega
    have hs : sliceFrom32 tx.To = some (tx.To.drop 32) := by simp [sliceFrom32, h64]
    cases hc : t.Contracts with
    | none => exact absurd hc hcs
    | some cs =>
      simp only [credit, hne, if_false, hs, hc]
      by_cases he : tx.TokenAddress = EKTAddress
      · simp only [if_pos he, mapWrite]
        exact ⟨_, rfl⟩
      · by_cases hg : tx.TokenAddress = GasAddress
        · simp only [if_neg he, if_pos hg, mapWrite]
          exact ⟨_, rfl⟩
        · obtain ⟨b, hb⟩ := creditBalances_isSome
            (mapRead ContractAccount.zero (some cs) (EncodeToString (tx.To.drop 32))).Balances
            tx.TokenAddress tx.Amount
          simp only [if_neg he, if_neg hg, hb, mapWrite]
          exact ⟨_, rfl⟩

/-- A transfer returns `true` once the debit and the credit are possible: the
payee is a live account and, for a 64-byte `to`, has a contracts map. -/
theorem Transfer_of_ok {heap : Heap} {fromP toP : Ptr} {tx : SubTransaction}
    {f f1 t : Account} (hf : deref heap fromP = some f)
    (hd : debit EKTAddress GasAddress f tx = some f1)
    (ht : deref heap toP = some t)
    (hto : tx.To.length = 32 ∨ (tx.To.length = 64 ∧ t.Contracts ≠ none)) :
    ∃ heap1, Transfer EKTAddress GasAddress heap fromP toP tx = some (true, heap1) := by
  obtain ⟨h1, hst⟩ := store_of_deref hf f1
  have hex : ∃ t0, deref h1 toP = some t0 ∧
      (tx.To.length = 32 ∨ (tx.To.length = 64 ∧ t0.Contracts ≠ none)) := by
    by_cases hp : toP = fromP
    · subst hp
      refine ⟨f1, deref_store_same hst, ?_⟩
      rw [hf] at ht
      injection ht with ht
      subst ht
      rcases hto with h | ⟨h, hc⟩
      · exact Or.inl h
      · exact Or.inr ⟨h, fun e => hc ((debit_contracts EKTAddress GasAddress hd).1 e)⟩
    · exact ⟨t, by rw [deref_store_other hst hp]; exact ht, hto⟩
  obtain ⟨t0, ht0, hto0⟩ := hex
  obtain ⟨t1, hc⟩ := credit_of_ok EKTAddress GasAddress hto0
  obtain ⟨h2, hst2⟩ := store_of_deref ht0 t1
  exact ⟨h2, by simp [Transfer, hf, hd, hst, ht0, hc, hst2]⟩

/-! ## C1: the strict balance boundary of the single transfer -/

/-- C1. For a live payer with a 32- or 64-byte `from` whose payer slot (owner
account, or resolved sub-account) holds `b` of the token (native, gas or generic):
when `b` equals `tx.Amount` exactly, `CheckSubTx` returns false and `HandleTx`
returns false leaving every account as it was; when `b = tx.Amount + 1`, the check
passes and `HandleTx` returns true for every payee that can be credited (a live
account which, for a 64-byte `to`, has a contracts map). -/
theorem C1_strict_balance_boundary (heap : Heap) (fromP toP : Ptr) (tx : SubTransaction)
    (f : Account) (b : Int)
    (hlen : tx.From.length = 32 ∨ tx.From.length = 64)
    (hf : deref heap fromP = some f)
    (hslot : payerSlot EKTAddress GasAddress f tx = some b) :
    (b = tx.Amount →
      CheckSubTx EKTAddress GasAddress heap fromP tx = some false ∧
      HandleTx EKTAddress GasAddress heap fromP toP tx = some (false, heap)) ∧
    (b = tx.Amount + 1 →
      CheckSubTx EKTAddress GasAddress heap fromP tx = some true ∧
      ∀ t, deref heap toP = some t →
        (tx.To.length = 32 ∨ (tx.To.length = 64 ∧ t.Contracts ≠ none)) →
        ∃ heap1, HandleTx EKTAddress GasAddress heap fromP toP tx = some (true, heap1)) := by
  have hchk := checkPayer_of_slot EKTAddress GasAddress hlen hslot
  constructor
  · intro hb
    have hc : CheckSubTx EKTAddress GasAddress heap fromP tx = some false := by
      simp [CheckSubTx, hf, hchk, hb]
    exact ⟨hc, by simp [HandleTx, hc]⟩
  · intro hb
    have hc : CheckSubTx EKTAddress GasAddress heap fromP tx = some true := by
      simp [CheckSubTx, hf, hchk, hb]
    refine ⟨hc, ?_⟩
    intro t ht hto
    obtain ⟨f1, hd⟩ := debit_of_slot EKTAddress GasAddress hlen hslot
    obtain ⟨heap1, hT⟩ := Transfer_of_ok EKTAddress GasAddress hf hd ht hto
    exact ⟨heap1, by simp [HandleTx, hc, hT]⟩

/-- C1 at a concrete payer holding 5 of the native token: an amount of 5 is
rejected, an amount of 4 is transferred. -/
theorem C1_strict_balance_boundary_witness :
    (CheckSubTx "ekt" "gas" [plainAccount (addr 1) 5 0 0, plainAccount (addr 2) 0 0 0] (some 0)
        ⟨addr 1, addr 2, "ekt", 5⟩ = some false ∧
      HandleTx "ekt" "gas" [plainAccount (addr 1) 5 0 0, plainAccount (addr 2) 0 0 0] (some 0)
        (some 1) ⟨addr 1, addr 2, "ekt", 5⟩
        = some (false, [plainAccount (addr 1) 5 0 0, plainAccount (addr 2) 0 0 0])) ∧
    (∃ heap1, HandleTx "ekt" "gas" [plainAccount (addr 1) 5 0 0, plainAccount (addr 2) 0 0 0]
        (some 0) (some 1) ⟨addr 1, addr 2, "ekt", 4⟩ = some (true, heap1)) :=
  ⟨(C1_strict_balance_boundary "ekt" "gas" [plainAccount (addr 1) 5 0 0, plainAccount (addr 2) 0 0 0]
      (some 0) (some 1) ⟨addr 1, addr 2, "ekt", 5⟩ (plainAccount (addr 1) 5 0 0) 5
      (Or.inl (by decide)) rfl (by decide)).1 rfl,
   ((C1_strict_balance_boundary "ekt" "gas" [plainAccount (addr 1) 5 0 0, plainAccount (addr 2) 0 0 0]
      (some 0) (some 1) ⟨addr 1, addr 2, "ekt", 4⟩ (plainAccount (addr 1) 5 0 0) 5
      (Or.inl (by decide)) rfl (by decide)).2 rfl).2 (plainAccount (addr 2) 0 0 0) rfl
      (Or.inl (by decide))⟩

/-! ## C2: a failed batch persists nothing -/

/-- C2. Whenever `NewSubTransaction` returns false, the header after the call is
the header before it: the state tree is the same, with no entry added or changed,
whatever number of earlier sub-transactions of the batch had gone through. -/
theorem C2_batch_atomicity (header : Header) (txs : List SubTransaction)
    (h : (NewSubTransaction EKTAddress GasAddress header txs).map Prod.fst = some false) :
    NewSubTransaction EKTAddress GasAddress header txs = some (false, header) := by
  unfold NewSubTransaction at h ⊢
  cases hl : subTxLoop EKTAddress GasAddress header ([], []) txs with
  | fault => simp [hl] at h
  | returnFalse => rfl
  | next s =>
    obtain ⟨heap, m⟩ := s
    simp only [hl] at h
    cases hfl : flush heap m header.StatTree with
    | none => simp [hfl] at h
    | some t => simp [hfl] at h

/-- C2 on the batch of §8: A pays B 10 (fine), then B pays C 999999 (too much);
the call returns false and A and B are stored as before. -/
theorem C2_batch_atomicity_witness :
    (NewSubTransaction "ekt" "gas" sampleHeader
        [⟨addr 1, addr 2, "ekt", 10⟩, ⟨addr 2, addr 3, "ekt", 999999⟩]).map Prod.fst = some false ∧
    NewSubTransaction "ekt" "gas" sampleHeader
        [⟨addr 1, addr 2, "ekt", 10⟩, ⟨addr 2, addr 3, "ekt", 999999⟩]
      = some (false, sampleHeader) :=
  ⟨by decide, C2_batch_atomicity "ekt" "gas" sampleHeader
      [⟨addr 1, addr 2, "ekt", 10⟩, ⟨addr 2, addr 3, "ekt", 999999⟩] (by decide)⟩

/-! ## The fee/nonce gate -/

/-- The switch of the gate rejects exactly when the balance condition fails. -/
theorem insufficientBalance_eq_false_iff (account : Account) (tx : Transaction) :
    insufficientBalance EKTAddress GasAddress account tx = false ↔
      gateCovers EKTAddress GasAddress account tx := by
  unfold insufficientBalance gateCovers
  by_cases he : tx.TokenAddress = EKTAddress
  · simp only [if_pos he, decide_eq_false_iff_not, not_lt, ge_iff_le]
  · by_cases hg : tx.TokenAddress = GasAddress
    · simp only [if_neg he, if_pos hg, decide_eq_false_iff_not, not_lt, ge_iff_le]
    · simp only [if_neg he, if_neg hg, decide_eq_false_iff_not, not_or, not_lt, ge_iff_le, ne_eq]

/-- The gate unfolded once the lengths are right and the sender is stored. -/
theorem gate_of_sender {header : Header} {tx : Transaction} {sender : Account}
    (h1 : tx.From.length = 32) (h2 : tx.To.length = 32 ∨ tx.To.length = 64)
    (hg : header.GetAccount tx.From = some sender) :
    CheckFromAndBurnGas EKTAddress GasAddress header tx =
      if sender.Gas ≥ tx.Fee ∧ tx.Nonce = wrap64 (sender.Nonce + 1)
          ∧ gateCovers EKTAddress GasAddress sender tx then
        (true, { header with
          StatTree := header.StatTree.MustInsert sender.Address (sender.BurnGas tx.Fee) })
      else (false, header) := by
  have h2n : ¬ (tx.To.length ≠ 32 ∧ tx.To.length ≠ 64) := by
    rintro ⟨a, b⟩
    rcases h2 with h | h
    · exact a h
    · exact b h
  have h1n : ¬ tx.From.length ≠ 32 := fun h => h h1
  simp only [CheckFromAndBurnGas, if_neg h1n, if_neg h2n, Transaction.GetFrom, hg,
    Account.GetNonce, Transaction.GetNonce]
  by_cases h3 : sender.Gas < tx.Fee ∨ wrap64 (sender.Nonce + 1) ≠ tx.Nonce
  · have hn : ¬ (sender.Gas ≥ tx.Fee ∧ tx.Nonce = wrap64 (sender.Nonce + 1)
        ∧ gateCovers EKTAddress GasAddress sender tx) := by
      rintro ⟨a, b, _⟩
      rcases h3 with h | h
      · omega
      · exact h b.symm
    rw [if_pos h3, if_neg hn]
  · have h3a : sender.Gas ≥ tx.Fee := by
      by_contra hn
      exact h3 (Or.inl (by omega))
    have h3b : tx.Nonce = wrap64 (sender.Nonce + 1) := by
      by_contra hn
      exact h3 (Or.inr (fun e => hn e.symm))
    rw [if_neg h3]
    cases hi : insufficientBalance EKTAddress GasAddress sender tx with
    | true =>
      have hn : ¬ gateCovers EKTAddress GasAddress sender tx := by
        intro hc
        rw [(insufficientBalance_eq_false_iff EKTAddress GasAddress sender tx).2 hc] at hi
        cases hi
      have hn2 : ¬ (sender.Gas ≥ tx.Fee ∧ tx.Nonce = wrap64 (sender.Nonce + 1)
          ∧ gateCovers EKTAddress GasAddress sender tx) := fun h => hn h.2.2
      rw [if_neg hn2]
      rfl
    | false =>
      have hc := (insufficientBalance_eq_false_iff EKTAddress GasAddress sender tx).1 hi
      have hall : sender.Gas ≥ tx.Fee ∧ tx.Nonce = wrap64 (sender.Nonce + 1)
          ∧ gateCovers EKTAddress GasAddress sender tx := ⟨h3a, h3b, hc⟩
      rw [if_pos hall]
      rfl

/-- The gate returns true exactly on admissible transactions. -/
theorem gate_true_iff (header : Header) (tx : Transaction) :
    (CheckFromAndBurnGas EKTAddress GasAddress header tx).1 = true ↔
      Admissible EKTAddress GasAddress header tx := by
  by_cases h1 : tx.From.length = 32
  swap
  · simp [CheckFromAndBurnGas, Admissible, h1]
  by_cases h2 : tx.To.length = 32 ∨ tx.To.length = 64
  swap
  · have h2n : tx.To.length ≠ 32 ∧ tx.To.length ≠ 64 :=
      ⟨fun e => h2 (Or.inl e), fun e => h2 (Or.inr e)⟩
    simp [CheckFromAndBurnGas, Admissible, h1, h2, h2n]
  cases hg : header.GetAccount tx.From with
  | none => simp [CheckFromAndBurnGas, Admissible, h1, Transaction.GetFrom, hg]
  | some sender =>
    rw [gate_of_sender EKTAddress GasAddress h1 h2 hg]
    unfold Admissible
    constructor
    · intro h
      split at h
      · rename_i hc
        exact ⟨h1, h2, sender, hg, hc⟩
      · cases h
    · rintro ⟨_, _, s, hs, hc⟩
      rw [hg] at hs
      injection hs with hs
      subst hs
      rw [if_pos hc]

/-- The state after an accepted transaction: the burnt sender account written
under its own address, nothing else of the header touched. -/
theorem gate_state_of_true {header : Header} {tx : Transaction}
    (h : (CheckFromAndBurnGas EKTAddress GasAddress header tx).1 = true) :
    ∃ sender, header.GetAccount tx.From = some sender ∧
      CheckFromAndBurnGas EKTAddress GasAddress header tx =
        (true, { header with
          StatTree := header.StatTree.MustInsert sender.Address (sender.BurnGas tx.Fee) }) := by
  obtain ⟨h1, h2, sender, hg, hc⟩ := (gate_true_iff EKTAddress GasAddress header tx).1 h
  refine ⟨sender, hg, ?_⟩
  rw [gate_of_sender EKTAddress GasAddress h1 h2 hg, if_pos hc]

/-- A well-formed tree stays well formed under a write of an account under its
own address. -/
theorem WellFormed_MustInsert {t : MTP} (hwf : t.WellFormed) (account : Account) :
    (t.MustInsert account.Address account).WellFormed := by
  intro key a hget
  unfold MTP.GetValue MTP.MustInsert at hget
  by_cases hk : account.Address = key
  · subst hk
    rw [amGet_amSet_self] at hget
    injection hget with hget
    rw [← hget]
  · rw [amGet_amSet_ne _ _ _ _ hk] at hget
    exact hwf key a hget

/-- The sample gate state is well formed. -/
theorem gateHeader_wellFormed : gateHeader.StatTree.WellFormed := by
  intro key account h
  simp only [gateHeader, headerOf, MTP.GetValue, amGet] at h
  split at h
  · rename_i hk
    injection h with h
    rw [← h, ← hk]
    rfl
  · cases h

/-! ## C3: admission is decided exactly by the stated conditions -/

/-- C3. `CheckFromAndBurnGas` returns true if and only if `from` has 32 bytes, `to`
has 32 or 64 bytes, the sender account is stored, its gas is at least the fee, the
nonce of the transaction is the sender's nonce plus one, and the balance covers the
amount: the native amount for the native token, the gas against amount plus fee for
the gas token, a present balances map and its entry for any other token (sums are
the `int64` sums of the source). In particular an account with nonce 5 accepts
nonce 6 and rejects nonce 5 and nonce 7. -/
theorem C3_admission_exact (header : Header) (tx : Transaction) :
    ((CheckFromAndBurnGas EKTAddress GasAddress header tx).1 = true ↔
      (tx.From.length = 32 ∧ (tx.To.length = 32 ∨ tx.To.length = 64) ∧
        ∃ sender, header.GetAccount tx.From = some sender ∧ sender.Gas ≥ tx.Fee ∧
          tx.Nonce = wrap64 (sender.Nonce + 1) ∧
          (if tx.TokenAddress = EKTAddress then sender.Amount ≥ tx.Amount
           else if tx.TokenAddress = GasAddress then sender.Gas ≥ wrap64 (tx.Amount + tx.Fee)
           else sender.Balances ≠ none ∧
             mapRead 0 sender.Balances tx.TokenAddress ≥ tx.Amount))) ∧
    ((CheckFromAndBurnGas "ekt" "gas" gateHeader (gateTx 3 1 6)).1 = true ∧
      (CheckFromAndBurnGas "ekt" "gas" gateHeader (gateTx 3 1 5)).1 = false ∧
      (CheckFromAndBurnGas "ekt" "gas" gateHeader (gateTx 3 1 7)).1 = false) := by
  refine ⟨?_, by decide, by decide, by decide⟩
  exact gate_true_iff EKTAddress GasAddress header tx

/-! ## C4: an accepted transaction cannot be replayed -/

/-- C4. Over a well-formed state tree, when `CheckFromAndBurnGas` returns true on
`tx`, a second call with the same `tx` on the resulting state returns false: the
sender stored after the first call carries the old nonce plus one (`int64`
increment), which `tx.Nonce` does not follow. -/
theorem C4_no_replay (header : Header) (tx : Transaction)
    (hwf : header.StatTree.WellFormed)
    (h : (CheckFromAndBurnGas EKTAddress GasAddress header tx).1 = true) :
    (CheckFromAndBurnGas EKTAddress GasAddress
        (CheckFromAndBurnGas EKTAddress GasAddress header tx).2 tx).1 = false ∧
    ∃ sender stored, header.GetAccount tx.From = some sender ∧
      (CheckFromAndBurnGas EKTAddress GasAddress header tx).2.GetAccount tx.From = some stored ∧
      stored.Nonce = wrap64 (sender.Nonce + 1) := by
  obtain ⟨h1, h2, _, _, _⟩ := (gate_true_iff EKTAddress GasAddress header tx).1 h
  obtain ⟨sender, hg, hst⟩ := gate_state_of_true EKTAddress GasAddress h
  have hadr : sender.Address = tx.From := hwf tx.From sender hg
  have hget : (CheckFromAndBurnGas EKTAddress GasAddress header tx).2.GetAccount tx.From
      = some (sender.BurnGas tx.Fee) := by
    rw [hst]
    simp only [Header.GetAccount, MTP.GetValue, MTP.MustInsert, hadr]
    exact amGet_amSet_self _ _ _
  have hnonce : (sender.BurnGas tx.Fee).Nonce = wrap64 (sender.Nonce + 1) := rfl
  refine ⟨?_, sender, sender.BurnGas tx.Fee, hg, hget, hnonce⟩
  rw [gate_of_sender EKTAddress GasAddress h1 h2 hget]
  have hc := (gate_true_iff EKTAddress GasAddress header tx).1 h
  obtain ⟨_, _, s, hs, _, hn, _⟩ := hc
  rw [hg] at hs
  injection hs with hs
  subst hs
  have hno : ¬ ((sender.BurnGas tx.Fee).Gas ≥ tx.Fee ∧
      tx.Nonce = wrap64 ((sender.BurnGas tx.Fee).Nonce + 1) ∧
      gateCovers EKTAddress GasAddress (sender.BurnGas tx.Fee) tx) := by
    rintro ⟨_, hn2, _⟩
    rw [hnonce, hn] at hn2
    exact wrap64_succ_ne sender.Nonce hn2.symm
  rw [if_neg hno]

/-- C4 on the account with nonce 5: nonce 6 is accepted once and rejected when
submitted again. -/
theorem C4_no_replay_witness :
    gateHeader.StatTree.WellFormed ∧
    (CheckFromAndBurnGas "ekt" "gas" gateHeader (gateTx 3 1 6)).1 = true ∧
    (CheckFromAndBurnGas "ekt" "gas"
        (CheckFromAndBurnGas "ekt" "gas" gateHeader (gateTx 3 1 6)).2 (gateTx 3 1 6)).1 = false :=
  ⟨gateHeader_wellFormed, by decide,
    (C4_no_replay "ekt" "gas" gateHeader (gateTx 3 1 6) gateHeader_wellFormed (by decide)).1⟩

/-! ## C6: the effect of a successful plain transfer -/

/-- The debit of a 32-byte payer that passed the check: the slot goes down by the
amount, the rest of the account stays. -/
theorem debit_32_effect {f : Account} {tx : SubTransaction} (hfrom : tx.From.length = 32)
    (hchk : checkPayer EKTAddress GasAddress f tx = some true) :
    ∃ f1, debit EKTAddress GasAddress f tx = some f1 ∧
      ownerSlot EKTAddress GasAddress f1 tx.TokenAddress
        = wrap64 (ownerSlot EKTAddress GasAddress f tx.TokenAddress - tx.Amount) ∧
      agreeOffSlot EKTAddress GasAddress f f1 tx.TokenAddress := by
  simp only [checkPayer, hfrom, if_true] at hchk
  simp only [debit, hfrom, if_true]
  by_cases he : tx.TokenAddress = EKTAddress
  · simp only [if_pos he]
    refine ⟨_, rfl, ?_, rfl, rfl, rfl, fun h => absurd he h, fun _ => rfl, fun _ => rfl,
      fun _ _ => rfl⟩
    simp only [ownerSlot, if_pos he]
  · by_cases hg : tx.TokenAddress = GasAddress
    · simp only [if_neg he, if_pos hg]
      refine ⟨_, rfl, ?_, rfl, rfl, rfl, fun _ => rfl, ?_, fun _ => rfl, fun _ _ => rfl⟩
      · simp only [ownerSlot, if_neg he, if_pos hg]
      · rintro (h | h)
        · exact absurd h he
        · exact absurd hg h
    · simp only [if_neg he, if_neg hg] at hchk ⊢
      cases hb : f.Balances with
      | none => simp [hb] at hchk
      | some es =>
        simp only [mapWrite]
        refine ⟨_, rfl, ?_, rfl, rfl, rfl, fun _ => rfl, fun _ => rfl, ?_, ?_⟩
        · simp only [ownerSlot, if_neg he, if_neg hg, mapRead, mapLookup, amGet_amSet_self,
            Option.getD_some, hb]
        · rintro (h | h)
          · exact absurd h he
          · exact absurd h hg
        · intro k hk
          simp only [mapLookup, hb]
          exact amGet_amSet_ne _ _ _ _ (fun e => hk e.symm)

/-- The credit of a 32-byte payee: the slot goes up by the amount, an absent
generic balance counting as 0, and the rest of the account stays. -/
theorem credit_32_effect (t : Account) {tx : SubTransaction} (hto : tx.To.length = 32) :
    ∃ t1, credit EKTAddress GasAddress t tx = some t1 ∧
      ownerSlot EKTAddress GasAddress t1 tx.TokenAddress
        = wrap64 (ownerSlot EKTAddress GasAddress t tx.TokenAddress + tx.Amount) ∧
      agreeOffSlot EKTAddress GasAddress t t1 tx.TokenAddress := by
  simp only [credit, hto, if_true]
  by_cases he : tx.TokenAddress = EKTAddress
  · simp only [if_pos he]
    refine ⟨_, rfl, ?_, rfl, rfl, rfl, fun h => absurd he h, fun _ => rfl, fun _ => rfl,
      fun _ _ => rfl⟩
    simp only [ownerSlot, if_pos he]
  · by_cases hg : tx.TokenAddress = GasAddress
    · simp only [if_neg he, if_pos hg]
      refine ⟨_, rfl, ?_, rfl, rfl, rfl, fun _ => rfl, ?_, fun _ => rfl, fun _ _ => rfl⟩
      · simp only [ownerSlot, if_neg he, if_pos hg]
      · rintro (h | h)
        · exact absurd h he
        · exact absurd hg h
    · simp only [if_neg he, if_neg hg]
      cases hb : t.Balances with
      | none =>
        simp only [creditBalances, if_true, mapWrite]
        refine ⟨_, rfl, ?_, rfl, rfl, rfl, fun _ => rfl, fun _ => rfl, ?_, ?_⟩
        · simp [ownerSlot, he, hg, mapRead, mapLookup, amGet, amSet, hb]
        · rintro (h | h)
          · exact absurd h he
          · exact absurd h hg
        · intro k hk
          have hk2 : ¬ tx.TokenAddress = k := fun e => hk e.symm
          simp [mapLookup, amGet, amSet, hb, hk2]
      | some es =>
        simp only [creditBalances, mapWrite]
        refine ⟨_, rfl, ?_, rfl, rfl, rfl, fun _ => rfl, fun _ => rfl, ?_, ?_⟩
        · simp [ownerSlot, he, hg, mapRead, mapLookup, amGet_amSet_self, hb]
        · rintro (h | h)
          · exact absurd h he
          · exact absurd h hg
        · intro k hk
          simp only [mapLookup, hb]
          simp only [reduceCtorEq, if_false]
          exact amGet_amSet_ne _ _ _ _ (fun e => hk e.symm)

/-- C6. For a sub-transaction with a 32-byte `from` and a 32-byte `to` handled on
two distinct live accounts, when the check passes `HandleTx` returns true; the
payer's slot selected by the token (amount, gas, or balances entry) is lower by
exactly `tx.Amount` and the payee's slot for the same token higher by exactly
`tx.Amount` (`int64` arithmetic, hence the exact difference whenever that is
representable; an absent generic balance counts as 0); every other field of both
accounts, and every other account, is unchanged. -/
theorem C6_transfer_effect (heap : Heap) (fromP toP : Ptr) (tx : SubTransaction)
    (f t : Account) (hfrom : tx.From.length = 32) (hto : tx.To.length = 32)
    (hne : fromP ≠ toP) (hf : deref heap fromP = some f) (ht : deref heap toP = some t)
    (hchk : CheckSubTx EKTAddress GasAddress heap fromP tx = some true) :
    ∃ heap1 f1 t1, HandleTx EKTAddress GasAddress heap fromP toP tx = some (true, heap1) ∧
      deref heap1 fromP = some f1 ∧ deref heap1 toP = some t1 ∧
      ownerSlot EKTAddress GasAddress f1 tx.TokenAddress
        = wrap64 (ownerSlot EKTAddress GasAddress f tx.TokenAddress - tx.Amount) ∧
      ownerSlot EKTAddress GasAddress t1 tx.TokenAddress
        = wrap64 (ownerSlot EKTAddress GasAddress t tx.TokenAddress + tx.Amount) ∧
      (inInt64 (ownerSlot EKTAddress GasAddress f tx.TokenAddress - tx.Amount) →
        ownerSlot EKTAddress GasAddress f1 tx.TokenAddress
          = ownerSlot EKTAddress GasAddress f tx.TokenAddress - tx.Amount) ∧
      (inInt64 (ownerSlot EKTAddress GasAddress t tx.TokenAddress + tx.Amount) →
        ownerSlot EKTAddress GasAddress t1 tx.TokenAddress
          = ownerSlot EKTAddress GasAddress t tx.TokenAddress + tx.Amount) ∧
      agreeOffSlot EKTAddress GasAddress f f1 tx.TokenAddress ∧
      agreeOffSlot EKTAddress GasAddress t t1 tx.TokenAddress ∧
      (∀ q, q ≠ fromP → q ≠ toP → deref heap1 q = deref heap q) := by
  have hcp : checkPayer EKTAddress GasAddress f tx = some true := by
    simpa [CheckSubTx, hf] using hchk
  obtain ⟨f1, hd, hfs, hfa⟩ := debit_32_effect EKTAddress GasAddress hfrom hcp
  obtain ⟨h1, hs1⟩ := store_of_deref hf f1
  have ht1 : deref h1 toP = some t := by
    rw [deref_store_other hs1 (fun e => hne e.symm)]
    exact ht
  obtain ⟨t1, hc, hts, hta⟩ := credit_32_effect EKTAddress GasAddress t hto
  obtain ⟨h2, hs2⟩ := store_of_deref ht1 t1
  have hH : HandleTx EKTAddress GasAddress heap fromP toP tx = some (true, h2) := by
    simp [HandleTx, hchk, Transfer, hf, hd, hs1, ht1, hc, hs2]
  refine ⟨h2, f1, t1, hH, ?_, deref_store_same hs2, hfs, hts, ?_, ?_, hfa, hta, ?_⟩
  · rw [deref_store_other hs2 hne]
    exact deref_store_same hs1
  · intro hr
    rw [hfs, wrap64_of_inInt64 hr]
  · intro hr
    rw [hts, wrap64_of_inInt64 hr]
  · intro q hq1 hq2
    rw [deref_store_other hs2 hq2, deref_store_other hs1 hq1]

/-- C6 on a payer holding 5 and a payee holding 0 of the native token, amount 4. -/
theorem C6_transfer_effect_witness :
    ∃ heap1 f1 t1,
      HandleTx "ekt" "gas" [plainAccount (addr 1) 5 0 0, plainAccount (addr 2) 0 0 0] (some 0)
        (some 1) ⟨addr 1, addr 2, "ekt", 4⟩ = some (true, heap1) ∧
      deref heap1 (some 0) = some f1 ∧ deref heap1 (some 1) = some t1 ∧
      ownerSlot "ekt" "gas" f1 "ekt" = wrap64 (5 - 4) ∧
      ownerSlot "ekt" "gas" t1 "ekt" = wrap64 (0 + 4) :=
  (C6_transfer_effect "ekt" "gas" [plainAccount (addr 1) 5 0 0, plainAccount (addr 2) 0 0 0]
    (some 0) (some 1) ⟨addr 1, addr 2, "ekt", 4⟩ (plainAccount (addr 1) 5 0 0)
    (plainAccount (addr 2) 0 0 0) (by decide) (by decide) (by decide) rfl rfl (by decide)).imp
    (fun _ h1 => h1.imp (fun _ h2 => h2.imp
      (fun _ h3 => ⟨h3.1, h3.2.1, h3.2.2.1, h3.2.2.2.1, h3.2.2.2.2.1⟩)))

/-! ## C7: composite destinations in a batch -/

/-- The destination check of the loop, on first reference: a 64-byte `to` whose
owner is not in the working-copy map, and is either not stored or has no contracts
entry for the sub-account id, ends the batch with `return false`. -/
theorem subTxStep_invalid_destination (header : Header) (s : Heap × WorkMap)
    (tx : SubTransaction) (hfrom : 32 ≤ tx.From.length) (hto : tx.To.length = 64)
    (hm : amGet (EncodeToString (tx.To.take 32)) s.2 = none)
    (hbad : ∀ owner, header.GetAccount (tx.To.take 32) = some owner →
      mapLookup owner.Contracts (EncodeToString (tx.To.drop 32)) = none) :
    subTxStep EKTAddress GasAddress header s tx = Iter.returnFalse := by
  have h1 : sliceTo32 tx.From = some (tx.From.take 32) := by simp [sliceTo32, hfrom]
  have h2 : sliceTo32 tx.To = some (tx.To.take 32) := by simp [sliceTo32, hto]
  have hr : resolveTo header tx (tx.To.take 32) = none := by
    unfold resolveTo
    cases hg : header.GetAccount (tx.To.take 32) with
    | none => simp [hto]
    | some owner =>
      have hb := hbad owner hg
      simp only [hto, if_true]
      by_cases hc : owner.Contracts = none
      · simp [hc]
      · simp [hc, hb]
  simp only [subTxStep, h1, h2, hm, hr]

/-- C7, failing input. With B stored with an empty contracts map, the batch holding
only the transfer to the sub-account `09..09` of B is rejected; but after a plain
transfer to B has put B in the working-copy map, the same transfer is accepted,
and the batch returns true and stores B with a sub-account it never had. -/
theorem C7_cached_owner_skips_destination_check :
    NewSubTransaction "ekt" "gas" contractHeader [⟨addr 1, addr 2 ++ addr 9, "ekt", 1⟩]
      = some (false, contractHeader) ∧
    NewSubTransaction "ekt" "gas" contractHeader
        [⟨addr 1, addr 2, "ekt", 1⟩, ⟨addr 1, addr 2 ++ addr 9, "ekt", 1⟩]
      = some (true, headerOf
          [(addr 1, plainAccount (addr 1) 98 0 0),
           (addr 2, { plainAccount (addr 2) 1 0 0 with
              Contracts := some [(EncodeToString (addr 9), ⟨1, 0, none⟩)] })]) := by
  decide

/-! ## C8: a sender that is not stored -/

/-- A sender that is neither in the working-copy map nor stored leaves `from` nil,
and the loop body then faults in `CheckSubTx` as soon as the payee resolves. -/
theorem subTxStep_absent_sender (header : Header) (s : Heap × WorkMap)
    (tx : SubTransaction) (hfrom : 32 ≤ tx.From.length) (hto : tx.To.length = 32)
    (hm : amGet (EncodeToString (tx.From.take 32)) s.2 = none)
    (hg : header.GetAccount (tx.From.take 32) = none) :
    subTxStep EKTAddress GasAddress header s tx = Iter.fault := by
  have h1 : sliceTo32 tx.From = some (tx.From.take 32) := by simp [sliceTo32, hfrom]
  have h2 : sliceTo32 tx.To = some (tx.To.take 32) := by simp [sliceTo32, hto]
  have hH : ∀ heap toP, HandleTx EKTAddress GasAddress heap none toP tx = none := by
    intro heap toP
    simp [HandleTx, CheckSubTx, deref]
  have hr : ∃ a, resolveTo header tx (tx.To.take 32) = some a := by
    unfold resolveTo
    cases header.GetAccount (tx.To.take 32) with
    | none => simp [hto]
    | some a => simp [hto]
  obtain ⟨a, hr⟩ := hr
  simp only [subTxStep, h1, h2, hm, hg, hr]
  cases amGet (EncodeToString (tx.To.take 32)) s.2 with
  | none => simp only [hH]
  | some q => simp only [hH]

/-- C8, failing input. On the state holding A and B only, the batch whose one
sub-transaction is paid by the unknown C does not return at all: it faults on the
nil payer. -/
theorem C8_absent_sender_faults :
    sampleHeader.GetAccount (addr 3) = none ∧
    NewSubTransaction "ekt" "gas" sampleHeader [⟨addr 3, addr 1, "ekt", 1⟩] = none := by
  decide

/-! ## C9: a payer sub-account that does not exist -/

/-- A payer without a contracts map is rejected for a 64-byte `from`, whatever
the token and the amount, and nothing is changed. -/
theorem HandleTx_nil_contracts (heap : Heap) (fromP toP : Ptr) (tx : SubTransaction)
    (f : Account) (hf : deref heap fromP = some f) (hlen : tx.From.length ≠ 32)
    (hc : f.Contracts = none) :
    CheckSubTx EKTAddress GasAddress heap fromP tx = some false ∧
    HandleTx EKTAddress GasAddress heap fromP toP tx = some (false, heap) := by
  have h : CheckSubTx EKTAddress GasAddress heap fromP tx = some false := by
    simp [CheckSubTx, hf, checkPayer, hlen, hc]
  exact ⟨h, by simp [HandleTx, h]⟩

/-- C9, failing input. The payer has a contracts map without the sub-account
`09..09`; a native-token sub-transaction of amount -1 from that sub-account passes
`CheckSubTx`, and `HandleTx` returns true, creates the sub-account with amount 1
and leaves the payee with amount -1. -/
theorem C9_missing_subaccount_accepted :
    mapLookup (contractOwner (addr 1) 100).Contracts (EncodeToString (addr 9)) = none ∧
    CheckSubTx "ekt" "gas" [contractOwner (addr 1) 100, plainAccount (addr 2) 0 0 0] (some 0)
        ⟨addr 1 ++ addr 9, addr 2, "ekt", -1⟩ = some true ∧
    HandleTx "ekt" "gas" [contractOwner (addr 1) 100, plainAccount (addr 2) 0 0 0] (some 0)
        (some 1) ⟨addr 1 ++ addr 9, addr 2, "ekt", -1⟩
      = some (true,
          [{ plainAccount (addr 1) 100 0 0 with
              Contracts := some [(EncodeToString (addr 9), ⟨1, 0, none⟩)] },
           plainAccount (addr 2) (-1) 0 0]) := by
  decide

/-! ## C10: the boundary of the fee/nonce gate -/

/-- C10, counterexample. The account has amount 10, gas 2 and nonce 5; the
transaction with amount 10, fee 2 and nonce 6 has its fee equal to the gas and its
amount equal to the balance, and is accepted. -/
theorem C10_exact_fee_and_amount_accepted :
    gateHeader.GetAccount (gateTx 10 2 6).From = some (plainAccount (addr 1) 10 2 5) ∧
    (gateTx 10 2 6).Fee = (plainAccount (addr 1) 10 2 5).Gas ∧
    (gateTx 10 2 6).Amount = (plainAccount (addr 1) 10 2 5).Amount ∧
    (CheckFromAndBurnGas "ekt" "gas" gateHeader (gateTx 10 2 6)).1 = true := by
  decide

/-- C10, amended. For a transaction that passes the address-length, existence and
nonce conditions, the gate returns true exactly when the gas is at least the fee
and the balance covers the amount, both comparisons being `≥`: it rejects a fee
above the gas, accepts a fee equal to the gas when the balance covers the amount,
and accepts an amount equal to the held native or generic balance when the gas
covers the fee. -/
theorem C10_gate_boundary (header : Header) (tx : Transaction) (sender : Account)
    (h1 : tx.From.length = 32) (h2 : tx.To.length = 32 ∨ tx.To.length = 64)
    (hg : header.GetAccount tx.From = some sender)
    (hn : tx.Nonce = wrap64 (sender.Nonce + 1)) :
    ((CheckFromAndBurnGas EKTAddress GasAddress header tx).1 = true ↔
      (sender.Gas ≥ tx.Fee ∧ gateCovers EKTAddress GasAddress sender tx)) ∧
    (sender.Gas < tx.Fee → (CheckFromAndBurnGas EKTAddress GasAddress header tx).1 = false) ∧
    (tx.Fee = sender.Gas → gateCovers EKTAddress GasAddress sender tx →
      (CheckFromAndBurnGas EKTAddress GasAddress header tx).1 = true) ∧
    (tx.TokenAddress = EKTAddress → tx.Amount = sender.Amount → sender.Gas ≥ tx.Fee →
      (CheckFromAndBurnGas EKTAddress GasAddress header tx).1 = true) ∧
    (tx.TokenAddress ≠ EKTAddress → tx.TokenAddress ≠ GasAddress → sender.Balances ≠ none →
      tx.Amount = mapRead 0 sender.Balances tx.TokenAddress → sender.Gas ≥ tx.Fee →
      (CheckFromAndBurnGas EKTAddress GasAddress header tx).1 = true) := by
  have key : (CheckFromAndBurnGas EKTAddress GasAddress header tx).1 = true ↔
      (sender.Gas ≥ tx.Fee ∧ gateCovers EKTAddress GasAddress sender tx) := by
    rw [gate_of_sender EKTAddress GasAddress h1 h2 hg]
    constructor
    · intro h
      split at h
      · rename_i hc
        exact ⟨hc.1, hc.2.2⟩
      · cases h
    · rintro ⟨a, b⟩
      rw [if_pos ⟨a, hn, b⟩]
  refine ⟨key, ?_, ?_, ?_, ?_⟩
  · intro hlt
    cases hr : (CheckFromAndBurnGas EKTAddress GasAddress header tx).1 with
    | false => rfl
    | true =>
      have := (key.1 hr).1
      omega
  · intro hfee hc
    exact key.2 ⟨by omega, hc⟩
  · intro he ha hfee
    refine key.2 ⟨hfee, ?_⟩
    simp only [gateCovers, if_pos he]
    omega
  · intro he hgs hb ha hfee
    refine key.2 ⟨hfee, ?_⟩
    simp only [gateCovers, if_neg he, if_neg hgs]
    exact ⟨hb, by omega⟩

/-- C10, amended, on the account with amount 10, gas 2 and nonce 5 and the
transaction with amount 10, fee 2 and nonce 6. -/
theorem C10_gate_boundary_witness :
    (gateTx 10 2 6).Fee = (plainAccount (addr 1) 10 2 5).Gas ∧
    gateCovers "ekt" "gas" (plainAccount (addr 1) 10 2 5) (gateTx 10 2 6) ∧
    (CheckFromAndBurnGas "ekt" "gas" gateHeader (gateTx 10 2 6)).1 = true :=
  ⟨by decide, by decide,
    (C10_gate_boundary "ekt" "gas" gateHeader (gateTx 10 2 6) (plainAccount (addr 1) 10 2 5)
      (by decide) (Or.inl (by decide)) (by decide) (by decide)).2.2.1 (by decide) (by decide)⟩

/-! ## C20: `Decimals` -/

/-- The loop of `Decimals` runs its body once for each unit between the counter and
the bound. -/
theorem decimalsLoop_eq_iterate (n : Nat) : ∀ (decimal i result : Int),
    (decimal - i).toNat = n →
    decimalsLoop decimal i result = (fun r => wrap64 (r * 10))^[n] result := by
  induction n with
  | zero =>
    intro decimal i result h
    rw [decimalsLoop]
    have : ¬ i < decimal := by omega
    simp [this]
  | succ n ih =>
    intro decimal i result h
    rw [decimalsLoop]
    have hlt : i < decimal := by omega
    rw [if_pos hlt, ih decimal (i + 1) (wrap64 (result * 10)) (by omega)]
    rfl

/-- C20. `Decimals` is a total function: on every `d` its loop stops after
`max 0 d` passes. It returns 1 for every `d ≤ 0`, and exactly `10 ^ d` for every
`0 ≤ d ≤ 18`. -/
theorem C20_Decimals_power_of_ten :
    (∀ d : Int, Decimals d = (fun r => wrap64 (r * 10))^[d.toNat] 1) ∧
    (∀ d : Int, d ≤ 0 → Decimals d = 1) ∧
    (∀ d : Int, 0 ≤ d → d ≤ 18 → Decimals d = 10 ^ d.toNat) := by
  have h1 : ∀ d : Int, Decimals d = (fun r => wrap64 (r * 10))^[d.toNat] 1 := by
    intro d
    exact decimalsLoop_eq_iterate d.toNat d 0 1 (by simp)
  refine ⟨h1, ?_, ?_⟩
  · intro d hd
    rw [h1 d]
    have : d.toNat = 0 := by omega
    rw [this]
    rfl
  · intro d h0 h18
    rw [h1 d]
    obtain ⟨k, rfl⟩ := Int.eq_ofNat_of_zero_le h0
    have hk : k ≤ 18 := by omega
    simp only [Int.toNat_ofNat]
    interval_cases k <;> decide

/-- C20 at 0, at a negative argument and at 18. -/
theorem C20_Decimals_power_of_ten_witness :
    Decimals (-5) = 1 ∧ Decimals 0 = 1 ∧ Decimals 18 = 1000000000000000000 :=
  ⟨C20_Decimals_power_of_ten.2.1 (-5) (by decide),
   C20_Decimals_power_of_ten.2.1 0 (by decide),
   C20_Decimals_power_of_ten.2.2 18 (by decide) (by decide)⟩

/-! ## C12: miner settlement -/

/-- C12. After `UpdateMiner` the coinbase account is stored, with the gas it had
before (0 when it was not stored) plus the header's total fee (`int64` sum, exact
whenever representable) and its other fields as before; every other address reads
as before, and the total fee and the other header fields are unchanged. With a
total fee of 50 and a coinbase that was not stored, the gas is 50. -/
theorem C12_miner_settlement (header : Header) :
    (UpdateMiner header).ExistAddress header.Coinbase = true ∧
    (UpdateMiner header).GetAccount header.Coinbase
      = some { (header.GetAccount header.Coinbase).getD (NewAccount header.Coinbase) with
          Gas := wrap64 (((header.GetAccount header.Coinbase).getD
            (NewAccount header.Coinbase)).Gas + header.TotalFee) } ∧
    (header.GetAccount header.Coinbase = none →
      (UpdateMiner header).GetAccount header.Coinbase
        = some { NewAccount header.Coinbase with Gas := wrap64 (0 + header.TotalFee) }) ∧
    (inInt64 (((header.GetAccount header.Coinbase).getD (NewAccount header.Coinbase)).Gas
        + header.TotalFee) →
      (UpdateMiner header).GetAccount header.Coinbase
        = some { (header.GetAccount header.Coinbase).getD (NewAccount header.Coinbase) with
            Gas := ((header.GetAccount header.Coinbase).getD
              (NewAccount header.Coinbase)).Gas + header.TotalFee }) ∧
    (∀ address, address ≠ header.Coinbase →
      (UpdateMiner header).GetAccount address = header.GetAccount address) ∧
    (UpdateMiner header).TotalFee = header.TotalFee ∧
    UpdateMiner header = { header with StatTree := (UpdateMiner header).StatTree } ∧
    (UpdateMiner { headerOf [] with TotalFee := 50, Coinbase := addr 7 }).GetAccount (addr 7)
      = some (plainAccount (addr 7) 0 50 0) := by
  have hget : (UpdateMiner header).GetAccount header.Coinbase
      = some { (header.GetAccount header.Coinbase).getD (NewAccount header.Coinbase) with
          Gas := wrap64 (((header.GetAccount header.Coinbase).getD
            (NewAccount header.Coinbase)).Gas + header.TotalFee) } := by
    unfold UpdateMiner
    simp only [Header.GetAccount, MTP.GetValue, MTP.MustInsert]
    rw [amGet_amSet_self]
    cases amGet header.Coinbase header.StatTree <;> rfl
  refine ⟨?_, hget, ?_, ?_, ?_, rfl, rfl, by decide⟩
  · have := hget
    simp only [Header.GetAccount, MTP.GetValue] at this
    simp [Header.ExistAddress, MTP.ContainsKey, this]
  · intro hnone
    rw [hget, hnone]
    rfl
  · intro hx
    rw [hget, wrap64_of_inInt64 hx]
  · intro address hne
    unfold UpdateMiner
    simp only [Header.GetAccount, MTP.GetValue, MTP.MustInsert]
    exact amGet_amSet_ne _ _ _ _ (fun e => hne e.symm)

/-! ## C13: the header derived from a parent -/

/-- C13. `NewHeader` of a parent has the parent's height plus one (`int64`
increment, exact whenever representable), total fee 0, the given timestamp, parent
hash and coinbase, and state and token trees at the parent's roots, so that
`GetAccount` and `ExistAddress` agree with the parent at every address. The parent
is an argument of a function that returns a new header, and is not changed. -/
theorem C13_header_derivation (parent : Header) (packTime : Int) (parentHash coinbase : Bytes) :
    (NewHeader parent packTime parentHash coinbase).Height = wrap64 (parent.Height + 1) ∧
    (inInt64 (parent.Height + 1) →
      (NewHeader parent packTime parentHash coinbase).Height = parent.Height + 1) ∧
    (NewHeader parent packTime parentHash coinbase).TotalFee = 0 ∧
    (NewHeader parent packTime parentHash coinbase).Timestamp = packTime ∧
    (NewHeader parent packTime parentHash coinbase).PreviousHash = parentHash ∧
    (NewHeader parent packTime parentHash coinbase).Coinbase = coinbase ∧
    Root (NewHeader parent packTime parentHash coinbase).StatTree = Root parent.StatTree ∧
    Root (NewHeader parent packTime parentHash coinbase).TokenTree = Root parent.TokenTree ∧
    (∀ address, (NewHeader parent packTime parentHash coinbase).GetAccount address
      = parent.GetAccount address) ∧
    (∀ address, (NewHeader parent packTime parentHash coinbase).ExistAddress address
      = parent.ExistAddress address) := by
  refine ⟨rfl, ?_, rfl, rfl, rfl, rfl, rfl, rfl, fun _ => rfl, fun _ => rfl⟩
  intro h
  exact wrap64_of_inInt64 h

/-! ## C14 and C15: the genesis header -/

/-- The state tree of the genesis header is the fold of the inserts; height and
total fee are 0. -/
theorem GenesisHeader_fields (accounts : List Account) :
    (GenesisHeader accounts).StatTree
      = accounts.foldl (fun t account => amSet account.Address account t) [] ∧
    (GenesisHeader accounts).Height = 0 ∧ (GenesisHeader accounts).TotalFee = 0 := by
  unfold GenesisHeader
  have key : ∀ (l : List Account) (h : Header),
      (l.foldl (fun h account =>
          { h with StatTree := h.StatTree.MustInsert account.Address account }) h).StatTree
        = l.foldl (fun t account => amSet account.Address account t) h.StatTree ∧
      (l.foldl (fun h account =>
          { h with StatTree := h.StatTree.MustInsert account.Address account }) h).Height
        = h.Height ∧
      (l.foldl (fun h account =>
          { h with StatTree := h.StatTree.MustInsert account.Address account }) h).TotalFee
        = h.TotalFee := by
    intro l
    induction l with
    | nil => intro h; exact ⟨rfl, rfl, rfl⟩
    | cons a r ih =>
      intro h
      simp only [List.foldl_cons]
      exact ih _
  exact key accounts _

/-- An address none of the inserted accounts carries reads as before the inserts. -/
theorem foldl_insert_get_other (accounts : List Account) (t : MTP) (key : Bytes)
    (h : key ∉ accounts.map (fun a => a.Address)) :
    amGet key (accounts.foldl (fun t account => amSet account.Address account t) t)
      = amGet key t := by
  induction accounts generalizing t with
  | nil => rfl
  | cons a r ih =>
    simp only [List.map_cons, List.mem_cons, not_or] at h
    simp only [List.foldl_cons]
    rw [ih _ h.2]
    exact amGet_amSet_ne _ _ _ _ (fun e => h.1 e.symm)

/-- With pairwise distinct addresses, every inserted account reads back. -/
theorem foldl_insert_get_mem (accounts : List Account) (t : MTP) (a : Account)
    (hnd : (accounts.map (fun a => a.Address)).Nodup) (ha : a ∈ accounts) :
    amGet a.Address (accounts.foldl (fun t account => amSet account.Address account t) t)
      = some a := by
  induction accounts generalizing t with
  | nil => cases ha
  | cons x r ih =>
    simp only [List.map_cons, List.nodup_cons] at hnd
    simp only [List.foldl_cons]
    rcases List.mem_cons.1 ha with hx | hr
    · subst hx
      rw [foldl_insert_get_other r _ _ hnd.1]
      exact amGet_amSet_self _ _ _
    · exact ih _ hnd.2 hr

/-- C14. For accounts with pairwise distinct addresses, the genesis header has
height 0 and total fee 0, every account of the list exists under its address and
reads back equal to itself, and no other address exists. -/
theorem C14_genesis_seeding (accounts : List Account)
    (hnd : (accounts.map (fun a => a.Address)).Nodup) :
    (GenesisHeader accounts).Height = 0 ∧ (GenesisHeader accounts).TotalFee = 0 ∧
    (∀ a ∈ accounts, (GenesisHeader accounts).ExistAddress a.Address = true ∧
      (GenesisHeader accounts).GetAccount a.Address = some a) ∧
    (∀ b, b ∉ accounts.map (fun a => a.Address) →
      (GenesisHeader accounts).ExistAddress b = false) := by
  obtain ⟨ht, hh, hf⟩ := GenesisHeader_fields accounts
  refine ⟨hh, hf, ?_, ?_⟩
  · intro a ha
    have hg : (GenesisHeader accounts).GetAccount a.Address = some a := by
      simp only [Header.GetAccount, MTP.GetValue, ht]
      exact foldl_insert_get_mem accounts [] a hnd ha
    refine ⟨?_, hg⟩
    simp only [Header.GetAccount, MTP.GetValue] at hg
    simp [Header.ExistAddress, MTP.ContainsKey, hg]
  · intro b hb
    simp only [Header.ExistAddress, MTP.ContainsKey, ht]
    rw [foldl_insert_get_other accounts [] b hb]
    rfl

/-- C14 on the list of §8: one account A seeded with amount 100; B is not seeded. -/
theorem C14_genesis_seeding_witness :
    ((GenesisHeader [plainAccount (addr 1) 100 0 0]).ExistAddress (addr 1) = true ∧
      (GenesisHeader [plainAccount (addr 1) 100 0 0]).GetAccount (addr 1)
        = some (plainAccount (addr 1) 100 0 0)) ∧
    (GenesisHeader [plainAccount (addr 1) 100 0 0]).ExistAddress (addr 2) = false :=
  ⟨(C14_genesis_seeding [plainAccount (addr 1) 100 0 0] (by decide)).2.2.1
      (plainAccount (addr 1) 100 0 0) (by simp),
   (C14_genesis_seeding [plainAccount (addr 1) 100 0 0] (by decide)).2.2.2 (addr 2)
      (by decide)⟩

/-- C15, counterexample. Two accounts carry the same address with amounts 100 and
7; the list and its swap are permutations of each other, and the genesis headers
built from them store different accounts under that address. -/
theorem C15_duplicate_address_order_matters :
    List.Perm [plainAccount (addr 1) 100 0 0, plainAccount (addr 1) 7 0 0]
      [plainAccount (addr 1) 7 0 0, plainAccount (addr 1) 100 0 0] ∧
    (GenesisHeader [plainAccount (addr 1) 100 0 0, plainAccount (addr 1) 7 0 0]).GetAccount
        (addr 1) = some (plainAccount (addr 1) 7 0 0) ∧
    (GenesisHeader [plainAccount (addr 1) 7 0 0, plainAccount (addr 1) 100 0 0]).GetAccount
        (addr 1) = some (plainAccount (addr 1) 100 0 0) ∧
    plainAccount (addr 1) 7 0 0 ≠ plainAccount (addr 1) 100 0 0 :=
  ⟨List.Perm.swap _ _ _, by decide, by decide, by decide⟩

/-- C15, amended. For accounts with pairwise distinct addresses, the genesis
headers of a list and of any permutation of it hold the same address-to-account
mapping: `GetAccount` and `ExistAddress` agree at every address, and height and
total fee are equal. -/
theorem C15_genesis_order_independent (accounts permuted : List Account)
    (hnd : (accounts.map (fun a => a.Address)).Nodup) (hp : List.Perm permuted accounts) :
    (∀ address, (GenesisHeader permuted).GetAccount address
      = (GenesisHeader accounts).GetAccount address) ∧
    (∀ address, (GenesisHeader permuted).ExistAddress address
      = (GenesisHeader accounts).ExistAddress address) ∧
    (GenesisHeader permuted).Height = (GenesisHeader accounts).Height ∧
    (GenesisHeader permuted).TotalFee = (GenesisHeader accounts).TotalFee := by
  have hndp : (permuted.map (fun a => a.Address)).Nodup :=
    (List.Perm.nodup_iff (List.Perm.map _ hp)).2 hnd
  obtain ⟨ht, hh, hf⟩ := GenesisHeader_fields accounts
  obtain ⟨htp, hhp, hfp⟩ := GenesisHeader_fields permuted
  have hget : ∀ address, (GenesisHeader permuted).GetAccount address
      = (GenesisHeader accounts).GetAccount address := by
    intro address
    simp only [Header.GetAccount, MTP.GetValue, ht, htp]
    by_cases hmem : address ∈ accounts.map (fun a => a.Address)
    · obtain ⟨a, ha, rfl⟩ := List.mem_map.1 hmem
      rw [foldl_insert_get_mem accounts [] a hnd ha,
        foldl_insert_get_mem permuted [] a hndp (hp.mem_iff.2 ha)]
    · have hmem2 : address ∉ permuted.map (fun a => a.Address) := by
        intro h
        exact hmem ((List.Perm.map _ hp).mem_iff.1 h)
      rw [foldl_insert_get_other accounts [] address hmem,
        foldl_insert_get_other permuted [] address hmem2]
  refine ⟨hget, ?_, by rw [hh, hhp], by rw [hf, hfp]⟩
  intro address
  have := hget address
  simp only [Header.GetAccount, MTP.GetValue] at this
  simp only [Header.ExistAddress, MTP.ContainsKey, this]

/-- C15, amended, on two accounts with distinct addresses and their swap. -/
theorem C15_genesis_order_independent_witness :
    (GenesisHeader [plainAccount (addr 2) 5 0 0, plainAccount (addr 1) 100 0 0]).GetAccount (addr 1)
      = (GenesisHeader [plainAccount (addr 1) 100 0 0, plainAccount (addr 2) 5 0 0]).GetAccount
          (addr 1) ∧
    (GenesisHeader [plainAccount (addr 2) 5 0 0, plainAccount (addr 1) 100 0 0]).GetAccount (addr 2)
      = (GenesisHeader [plainAccount (addr 1) 100 0 0, plainAccount (addr 2) 5 0 0]).GetAccount
          (addr 2) :=
  ⟨(C15_genesis_order_independent [plainAccount (addr 1) 100 0 0, plainAccount (addr 2) 5 0 0]
      [plainAccount (addr 2) 5 0 0, plainAccount (addr 1) 100 0 0] (by decide)
      (List.Perm.swap _ _ _)).1 (addr 1),
   (C15_genesis_order_independent [plainAccount (addr 1) 100 0 0, plainAccount (addr 2) 5 0 0]
      [plainAccount (addr 2) 5 0 0, plainAccount (addr 1) 100 0 0] (by decide)
      (List.Perm.swap _ _ _)).1 (addr 2)⟩

/-! ## Inversion of the transfer -/

/-- What a returning `Transfer` went through. -/
theorem Transfer_inv {heap heap2 : Heap} {fromP toP : Ptr} {tx : SubTransaction} {b : Bool}
    (h : Transfer EKTAddress GasAddress heap fromP toP tx = some (b, heap2)) :
    ∃ f f1 heap1 t t1, deref heap fromP = some f ∧
      debit EKTAddress GasAddress f tx = some f1 ∧ store heap fromP f1 = some heap1 ∧
      deref heap1 toP = some t ∧ credit EKTAddress GasAddress t tx = some t1 ∧
      store heap1 toP t1 = some heap2 ∧ b = true := by
  unfold Transfer at h
  cases hf : deref heap fromP with
  | none => simp [hf] at h
  | some f =>
    simp only [hf] at h
    cases hd : debit EKTAddress GasAddress f tx with
    | none => simp [hd] at h
    | some f1 =>
      simp only [hd] at h
      cases hs : store heap fromP f1 with
      | none => simp [hs] at h
      | some heap1 =>
        simp only [hs] at h
        cases ht : deref heap1 toP with
        | none => simp [ht] at h
        | some t =>
          simp only [ht] at h
          cases hc : credit EKTAddress GasAddress t tx with
          | none => simp [hc] at h
          | some t1 =>
            simp only [hc] at h
            cases hs2 : store heap1 toP t1 with
            | none => simp [hs2] at h
            | some h2 =>
              simp only [hs2, Option.some.injEq, Prod.mk.injEq] at h
              obtain ⟨hb, hh⟩ := h
              subst hh
              exact ⟨f, f1, heap1, t, t1, rfl, hd, hs, ht, hc, hs2, hb.symm⟩

/-- A `HandleTx` that returns true passed the check and made the transfer. -/
theorem HandleTx_true_inv {heap heap2 : Heap} {fromP toP : Ptr} {tx : SubTransaction}
    (h : HandleTx EKTAddress GasAddress heap fromP toP tx = some (true, heap2)) :
    CheckSubTx EKTAddress GasAddress heap fromP tx = some true ∧
    Transfer EKTAddress GasAddress heap fromP toP tx = some (true, heap2) := by
  unfold HandleTx at h
  cases hc : CheckSubTx EKTAddress GasAddress heap fromP tx with
  | none => simp [hc] at h
  | some b =>
    cases b with
    | false => simp [hc] at h
    | true =>
      simp only [hc] at h
      exact ⟨rfl, h⟩

/-- Reading an association list after an upsert. -/
theorem amGet_amSet {K V : Type} [DecidableEq K] (k k2 : K) (v : V) (l : List (K × V)) :
    amGet k2 (amSet k v l) = if k = k2 then some v else amGet k2 l := by
  by_cases h : k = k2
  · subst h
    rw [if_pos rfl]
    exact amGet_amSet_self _ _ _
  · rw [if_neg h]
    exact amGet_amSet_ne _ _ _ _ h

/-! ## Non-negative balances through debit and credit -/

theorem balanceOk_zero : balanceOk 0 := by
  unfold balanceOk
  omega

theorem balanceOk_sub {x amount : Int} (hx : balanceOk x) (h0 : 0 ≤ amount) (hlt : x > amount) :
    balanceOk (wrap64 (x - amount)) := by
  unfold balanceOk at hx ⊢
  unfold wrap64
  omega

theorem balanceOk_add {x amount : Int} (hx : balanceOk x) (h0 : 0 ≤ amount)
    (hfit : x + amount < 2 ^ 63) : balanceOk (wrap64 (x + amount)) := by
  unfold balanceOk at hx ⊢
  unfold wrap64
  omega

theorem balancesOk_read {m : GoMap Int} (h : balancesOk m) (k : String) :
    balanceOk (mapRead 0 m k) := by
  unfold mapRead
  cases hl : mapLookup m k with
  | none => exact balanceOk_zero
  | some v => exact h k v hl

theorem balancesOk_set {es : List (String × Int)} (h : balancesOk (some es)) (k : String)
    {v : Int} (hv : balanceOk v) : balancesOk (some (amSet k v es)) := by
  intro k2 v2 hl
  simp only [mapLookup, amGet_amSet] at hl
  by_cases hk : k = k2
  · rw [if_pos hk] at hl
    injection hl with hl
    rw [← hl]
    exact hv
  · rw [if_neg hk] at hl
    exact h k2 v2 hl

theorem ContractAccount.zero_nonNegative : ContractAccount.zero.nonNegative := by
  refine ⟨balanceOk_zero, balanceOk_zero, ?_⟩
  intro k v h
  simp [ContractAccount.zero, mapLookup] at h

theorem contracts_read_nonNegative {m : GoMap ContractAccount}
    (h : ∀ k c, mapLookup m k = some c → c.nonNegative) (k : String) :
    (mapRead ContractAccount.zero m k).nonNegative := by
  unfold mapRead
  cases hl : mapLookup m k with
  | none => exact ContractAccount.zero_nonNegative
  | some c => exact h k c hl

theorem contracts_set_nonNegative {cs : List (String × ContractAccount)}
    (h : ∀ k c, mapLookup (some cs) k = some c → c.nonNegative) (k : String)
    {c : ContractAccount} (hc : c.nonNegative) :
    ∀ k2 c2, mapLookup (some (amSet k c cs)) k2 = some c2 → c2.nonNegative := by
  intro k2 c2 hl
  simp only [mapLookup, amGet_amSet] at hl
  by_cases hk : k = k2
  · rw [if_pos hk] at hl
    injection hl with hl
    rw [← hl]
    exact hc
  · rw [if_neg hk] at hl
    exact h k2 c2 hl

/-- A debit that passed the check, of an amount that is not negative, keeps the
balances of the payer non-negative. -/
theorem debit_nonNegative {f f1 : Account} {tx : SubTransaction} (hf : f.nonNegative)
    (h0 : 0 ≤ tx.Amount) (hchk : checkPayer EKTAddress GasAddress f tx = some true)
    (hd : debit EKTAddress GasAddress f tx = some f1) : f1.nonNegative := by
  obtain ⟨hA, hG, hB, hC⟩ := hf
  unfold checkPayer at hchk
  unfold debit at hd
  by_cases h32 : tx.From.length = 32
  · simp only [h32, if_true] at hchk hd
    by_cases he : tx.TokenAddress = EKTAddress
    · simp only [if_pos he, Option.some.injEq, decide_eq_true_eq] at hchk hd
      subst hd
      exact ⟨balanceOk_sub hA h0 hchk, hG, hB, hC⟩
    · by_cases hg : tx.TokenAddress = GasAddress
      · simp only [if_neg he, if_pos hg, Option.some.injEq, decide_eq_true_eq] at hchk hd
        subst hd
        exact ⟨hA, balanceOk_sub hG h0 hchk, hB, hC⟩
      · simp only [if_neg he, if_neg hg] at hchk hd
        cases hb : f.Balances with
        | none => simp [hb] at hchk
        | some es =>
          rw [hb] at hB
          simp only [hb, mapWrite, Option.some.injEq] at hd
          subst hd
          have hr : mapRead 0 (some es) tx.TokenAddress > tx.Amount := by
            by_contra hn
            simp [hb, hn] at hchk
          exact ⟨hA, hG, balancesOk_set hB _ (balanceOk_sub (balancesOk_read hB _) h0 hr), hC⟩
  · simp only [h32, if_false] at hchk hd
    cases hcs : f.Contracts with
    | none => simp [hcs] at hchk
    | some cs =>
      rw [hcs] at hC
      simp only [hcs, reduceCtorEq, if_false] at hchk hd
      cases hs : sliceFrom32 tx.From with
      | none => simp [hs] at hd
      | some subAddr =>
        simp only [hs] at hchk hd
        have hc0 := contracts_read_nonNegative hC (EncodeToString subAddr)
        obtain ⟨cA, cG, cB⟩ := hc0
        by_cases he : tx.TokenAddress = EKTAddress
        · simp only [if_pos he, Option.some.injEq, decide_eq_true_eq, mapWrite] at hchk hd
          subst hd
          exact ⟨hA, hG, hB, contracts_set_nonNegative hC _ ⟨balanceOk_sub cA h0 hchk, cG, cB⟩⟩
        · by_cases hg : tx.TokenAddress = GasAddress
          · simp only [if_neg he, if_pos hg, Option.some.injEq, decide_eq_true_eq,
              mapWrite] at hchk hd
            subst hd
            exact ⟨hA, hG, hB, contracts_set_nonNegative hC _ ⟨cA, balanceOk_sub cG h0 hchk, cB⟩⟩
          · simp only [if_neg he, if_neg hg] at hchk hd
            cases hb : (mapRead ContractAccount.zero (some cs) (EncodeToString subAddr)).Balances with
            | none => simp [hb] at hchk
            | some es =>
              rw [hb] at cB
              simp only [hb, mapWrite, Option.some.injEq] at hd
              subst hd
              have hr : mapRead 0 (some es) tx.TokenAddress > tx.Amount := by
                by_contra hn
                simp [hb, hn] at hchk
              exact ⟨hA, hG, hB, contracts_set_nonNegative hC _
                ⟨cA, cG, balancesOk_set cB _ (balanceOk_sub (balancesOk_read cB _) h0 hr)⟩⟩

/-- Adding an amount that is not negative to an entry of a non-negative balances
map, without overflow, gives a non-negative balances map. -/
theorem creditBalances_ok {balances b : GoMap Int} {token : String} {amount : Int}
    (hB : balancesOk balances) (h0 : 0 ≤ amount)
    (hfit : mapRead 0 balances token + amount < 2 ^ 63)
    (h : creditBalances balances token amount = some b) : balancesOk b := by
  unfold creditBalances at h
  cases hb : balances with
  | none =>
    simp only [hb, if_true, mapWrite, Option.some.injEq] at h
    subst h
    have hz : balancesOk (some [(token, (0 : Int))]) := by
      intro k v hl
      simp only [mapLookup, amGet] at hl
      split at hl
      · injection hl with hl
        rw [← hl]
        exact balanceOk_zero
      · cases hl
    refine balancesOk_set hz _ (balanceOk_add (balancesOk_read hz _) h0 ?_)
    rw [hb] at hfit
    simp only [mapRead, mapLookup, amGet, if_true, Option.getD_some, Option.getD_none] at hfit ⊢
    exact hfit
  | some es =>
    rw [hb] at hB hfit
    simp only [hb, reduceCtorEq, if_false, mapWrite, Option.some.injEq] at h
    subst h
    exact balancesOk_set hB _ (balanceOk_add (balancesOk_read hB _) h0 hfit)

/-- A credit of an amount that is not negative and does not overflow keeps the
balances of the payee non-negative. -/
theorem credit_nonNegative {t t1 : Account} {tx : SubTransaction} (ht : t.nonNegative)
    (h0 : 0 ≤ tx.Amount) (hfit : payeeSlot EKTAddress GasAddress t tx + tx.Amount < 2 ^ 63)
    (hc : credit EKTAddress GasAddress t tx = some t1) : t1.nonNegative := by
  obtain ⟨hA, hG, hB, hC⟩ := ht
  unfold payeeSlot at hfit
  unfold credit at hc
  by_cases h32 : tx.To.length = 32
  · simp only [h32, if_true, ownerSlot] at hfit hc
    by_cases he : tx.TokenAddress = EKTAddress
    · simp only [if_pos he, Option.some.injEq] at hfit hc
      subst hc
      exact ⟨balanceOk_add hA h0 hfit, hG, hB, hC⟩
    · by_cases hg : tx.TokenAddress = GasAddress
      · simp only [if_neg he, if_pos hg, Option.some.injEq] at hfit hc
        subst hc
        exact ⟨hA, balanceOk_add hG h0 hfit, hB, hC⟩
      · simp only [if_neg he, if_neg hg] at hfit hc
        cases hcb : creditBalances t.Balances tx.TokenAddress tx.Amount with
        | none => simp [hcb] at hc
        | some b =>
          simp only [hcb, Option.some.injEq] at hc
          subst hc
          exact ⟨hA, hG, creditBalances_ok hB h0 hfit hcb, hC⟩
  · simp only [h32, if_false] at hfit hc
    cases hs : sliceFrom32 tx.To with
    | none => simp [hs] at hc
    | some subAddr =>
      have hsub : subAddr = tx.To.drop 32 := by
        unfold sliceFrom32 at hs
        split at hs
        · injection hs with hs
          exact hs.symm
        · cases hs
      subst hsub
      simp only [hs] at hc
      cases hcs : t.Contracts with
      | none =>
        simp only [hcs, mapWrite] at hc
        split at hc <;> simp at hc
      | some cs =>
        rw [hcs] at hC
        simp only [hcs] at hfit hc
        have hc0 := contracts_read_nonNegative hC (EncodeToString (tx.To.drop 32))
        obtain ⟨cA, cG, cB⟩ := hc0
        by_cases he : tx.TokenAddress = EKTAddress
        · simp only [if_pos he, mapWrite, Option.some.injEq] at hfit hc
          subst hc
          exact ⟨hA, hG, hB, contracts_set_nonNegative hC _ ⟨balanceOk_add cA h0 hfit, cG, cB⟩⟩
        · by_cases hg : tx.TokenAddress = GasAddress
          · simp only [if_neg he, if_pos hg, mapWrite, Option.some.injEq] at hfit hc
            subst hc
            exact ⟨hA, hG, hB, contracts_set_nonNegative hC _ ⟨cA, balanceOk_add cG h0 hfit, cB⟩⟩
          · simp only [if_neg he, if_neg hg] at hfit hc
            cases hcb : creditBalances
                (mapRead ContractAccount.zero (some cs) (EncodeToString (tx.To.drop 32))).Balances
                tx.TokenAddress tx.Amount with
            | none => simp [hcb] at hc
            | some b =>
              simp only [hcb, mapWrite, Option.some.injEq] at hc
              subst hc
              exact ⟨hA, hG, hB, contracts_set_nonNegative hC _
                ⟨cA, cG, creditBalances_ok cB h0 hfit hcb⟩⟩

/-! ## C19: non-negative balances through a single transfer -/

/-- C19, counterexample. Payer and payee hold 5 and 0 of the native token, all
their balances being non-negative; the sub-transaction of amount -1 passes the
check (5 > -1), its credit 0 + (-1) does not overflow, `HandleTx` returns true and
the payee is left with amount -1. -/
theorem C19_negative_amount_debits_payee :
    (plainAccount (addr 1) 5 0 0).nonNegative ∧ (plainAccount (addr 2) 0 0 0).nonNegative ∧
    inInt64 ((plainAccount (addr 2) 0 0 0).Amount + (-1)) ∧
    HandleTx "ekt" "gas" [plainAccount (addr 1) 5 0 0, plainAccount (addr 2) 0 0 0] (some 0)
        (some 1) ⟨addr 1, addr 2, "ekt", -1⟩
      = some (true, [plainAccount (addr 1) 6 0 0, plainAccount (addr 2) (-1) 0 0]) ∧
    (plainAccount (addr 2) (-1) 0 0).Amount < 0 := by
  have hn : ∀ a x, 0 ≤ x → x < 2 ^ 63 → (plainAccount a x 0 0).nonNegative := by
    intro a x h0 h1
    refine ⟨⟨h0, h1⟩, balanceOk_zero, ?_, ?_⟩
    · intro k v h
      simp [plainAccount, mapLookup] at h
    · intro k c h
      simp [plainAccount, mapLookup] at h
  exact ⟨hn _ 5 (by decide) (by decide), hn _ 0 (by decide) (by decide), by decide, by decide,
    by decide⟩

/-- C19, amended. For live payer and payee accounts whose amount, gas, balances
entries and sub-account balances are all non-negative, and a sub-transaction whose
amount is not negative and whose credit does not overflow `int64`: if `HandleTx`
returns true, all those balances of both accounts are still non-negative. -/
theorem C19_nonnegative_preserved (heap heap2 : Heap) (fromP toP : Ptr) (tx : SubTransaction)
    (f t : Account) (hf : deref heap fromP = some f) (ht : deref heap toP = some t)
    (hfn : f.nonNegative) (htn : t.nonNegative) (h0 : 0 ≤ tx.Amount)
    (hfit : creditFits EKTAddress GasAddress heap fromP toP tx)
    (h : HandleTx EKTAddress GasAddress heap fromP toP tx = some (true, heap2)) :
    ∃ f2 t2, deref heap2 fromP = some f2 ∧ deref heap2 toP = some t2 ∧
      f2.nonNegative ∧ t2.nonNegative := by
  obtain ⟨hchk, hT⟩ := HandleTx_true_inv EKTAddress GasAddress h
  obtain ⟨f0, f1, heap1, t0, t1, hf0, hd, hs1, ht0, hc, hs2, _⟩ :=
    Transfer_inv EKTAddress GasAddress hT
  rw [hf] at hf0
  injection hf0 with hf0
  subst hf0
  have hcp : checkPayer EKTAddress GasAddress f tx = some true := by
    simpa [CheckSubTx, hf] using hchk
  have hf1 : f1.nonNegative := debit_nonNegative EKTAddress GasAddress hfn h0 hcp hd
  have ht0n : t0.nonNegative := by
    by_cases hp : toP = fromP
    · subst hp
      rw [deref_store_same hs1] at ht0
      injection ht0 with ht0
      rw [← ht0]
      exact hf1
    · rw [deref_store_other hs1 hp, ht] at ht0
      injection ht0 with ht0
      rw [← ht0]
      exact htn
  have ht1 : t1.nonNegative :=
    credit_nonNegative EKTAddress GasAddress ht0n h0 (hfit f f1 heap1 t0 hf hd hs1 ht0) hc
  by_cases hp : fromP = toP
  · subst hp
    exact ⟨t1, t1, deref_store_same hs2, deref_store_same hs2, ht1, ht1⟩
  · refine ⟨f1, t1, ?_, deref_store_same hs2, hf1, ht1⟩
    rw [deref_store_other hs2 hp]
    exact deref_store_same hs1

/-- C19, amended, on a payer holding 5 and a payee holding 0 of the native token
and an amount of 4. -/
theorem C19_nonnegative_preserved_witness :
    ∃ f2 t2,
      deref [plainAccount (addr 1) 1 0 0, plainAccount (addr 2) 4 0 0] (some 0) = some f2 ∧
      deref [plainAccount (addr 1) 1 0 0, plainAccount (addr 2) 4 0 0] (some 1) = some t2 ∧
      f2.nonNegative ∧ t2.nonNegative := by
  have hn : ∀ a x, 0 ≤ x → x < 2 ^ 63 → (plainAccount a x 0 0).nonNegative := by
    intro a x h0 h1
    refine ⟨⟨h0, h1⟩, balanceOk_zero, ?_, ?_⟩
    · intro k v h
      simp [plainAccount, mapLookup] at h
    · intro k c h
      simp [plainAccount, mapLookup] at h
  refine C19_nonnegative_preserved "ekt" "gas"
    [plainAccount (addr 1) 5 0 0, plainAccount (addr 2) 0 0 0]
    [plainAccount (addr 1) 1 0 0, plainAccount (addr 2) 4 0 0] (some 0) (some 1)
    ⟨addr 1, addr 2, "ekt", 4⟩ (plainAccount (addr 1) 5 0 0) (plainAccount (addr 2) 0 0 0)
    rfl rfl (hn _ 5 (by decide) (by decide)) (hn _ 0 (by decide) (by decide)) (by decide)
    ?_ (by decide)
  intro f f1 heap1 t0 hf hd hs ht
  have hne : (some 1 : Ptr) ≠ some 0 := by decide
  rw [deref_store_other hs hne] at ht
  injection ht with ht
  rw [← ht]
  decide

/-! ## C18: conservation of supply -/

/-- C18, failing input. On the state where A holds 100 and B holds 5 of the native
token (supply 105), the batch whose one sub-transaction moves 10 from A to A
returns true and stores A with 110: the supply is 115 afterwards. -/
theorem C18_self_transfer_mints :
    sampleHeader.StatTree.nativeSupply = 105 ∧
    NewSubTransaction "ekt" "gas" sampleHeader [⟨addr 1, addr 1, "ekt", 10⟩]
      = some (true, headerOf
          [(addr 1, plainAccount (addr 1) 110 0 0), (addr 2, plainAccount (addr 2) 5 0 0)]) ∧
    (headerOf [(addr 1, plainAccount (addr 1) 110 0 0),
      (addr 2, plainAccount (addr 2) 5 0 0)]).StatTree.nativeSupply = 115 := by
  decide

/-! ## Hex keys, allocation, and the flush of the working-copy map -/

theorem hexDigit_injective : ∀ a b : Fin 16, hexDigit a.val = hexDigit b.val → a = b := by
  decide

theorem hexChars_injective : ∀ (x y : Bytes), hexChars x = hexChars y → x = y := by
  intro x
  induction x with
  | nil =>
    intro y h
    cases y with
    | nil => rfl
    | cons c cs => simp [hexChars] at h
  | cons b bs ih =>
    intro y h
    cases y with
    | nil => simp [hexChars] at h
    | cons c cs =>
      simp only [hexChars, List.cons.injEq] at h
      obtain ⟨h1, h2, h3⟩ := h
      have e1 := hexDigit_injective ⟨b.val / 16, by omega⟩ ⟨c.val / 16, by omega⟩ h1
      have e2 := hexDigit_injective ⟨b.val % 16, by omega⟩ ⟨c.val % 16, by omega⟩ h2
      have e1v : b.val / 16 = c.val / 16 := congrArg Fin.val e1
      have e2v : b.val % 16 = c.val % 16 := congrArg Fin.val e2
      have hb : b = c := by
        apply Fin.ext
        omega
      rw [hb, ih cs h3]

/-- Distinct byte strings have distinct hex keys. -/
theorem EncodeToString_injective {x y : Bytes} (h : EncodeToString x = EncodeToString y) :
    x = y := by
  unfold EncodeToString at h
  exact hexChars_injective x y (by injection h)

theorem deref_lt {heap : Heap} {i : Nat} {a : Account} (h : deref heap (some i) = some a) :
    i < heap.length := by
  by_contra hn
  simp [deref, List.getElem?_eq_none (Nat.le_of_not_lt hn)] at h

theorem deref_append {heap : Heap} {p : Ptr} {a : Account} (h : deref heap p = some a)
    (l : List Account) : deref (heap ++ l) p = some a := by
  cases p with
  | none => simp [deref] at h
  | some i =>
    have hi := deref_lt h
    simp only [deref] at h ⊢
    rw [List.getElem?_append_left hi]
    exact h

theorem deref_alloc (heap : Heap) (a : Account) :
    deref (alloc heap a).1 (alloc heap a).2 = some a := by
  simp [alloc, deref]

theorem amGet_none_of_not_mem {K V : Type} [DecidableEq K] (k : K) (l : List (K × V))
    (h : k ∉ l.map Prod.fst) : amGet k l = none := by
  induction l with
  | nil => rfl
  | cons e r ih =>
    obtain ⟨k1, v1⟩ := e
    simp only [List.map_cons, List.mem_cons, not_or] at h
    simp only [amGet]
    rw [if_neg (fun e => h.1 e.symm)]
    exact ih h.2

theorem mem_keys_of_amGet {K V : Type} [DecidableEq K] {k : K} {v : V} {l : List (K × V)}
    (h : amGet k l = some v) : (k, v) ∈ l := by
  induction l with
  | nil => cases h
  | cons e r ih =>
    obtain ⟨k1, v1⟩ := e
    simp only [amGet] at h
    by_cases hk : k1 = k
    · rw [if_pos hk] at h
      injection h with h
      subst hk
      subst h
      exact List.mem_cons_self _ _
    · rw [if_neg hk] at h
      exact List.mem_cons_of_mem _ (ih h)

theorem amGet_of_mem_nodup {K V : Type} [DecidableEq K] {k : K} {v : V} {l : List (K × V)}
    (hnd : (l.map Prod.fst).Nodup) (h : (k, v) ∈ l) : amGet k l = some v := by
  induction l with
  | nil => cases h
  | cons e r ih =>
    obtain ⟨k1, v1⟩ := e
    simp only [List.map_cons, List.nodup_cons] at hnd
    rcases List.mem_cons.1 h with heq | hr
    · injection heq with h1 h2
      subst h1
      subst h2
      simp [amGet]
    · have hk : k1 ≠ k := by
        intro e
        subst e
        exact hnd.1 (List.mem_map.2 ⟨(k1, v), hr, rfl⟩)
      simp only [amGet]
      rw [if_neg hk]
      exact ih hnd.2 hr

theorem amSet_keys {K V : Type} [DecidableEq K] (k : K) (v : V) (l : List (K × V)) :
    ∀ k2, k2 ∈ (amSet k v l).map Prod.fst ↔ (k2 = k ∨ k2 ∈ l.map Prod.fst) := by
  induction l with
  | nil =>
    intro k2
    simp [amSet]
  | cons e r ih =>
    obtain ⟨k1, v1⟩ := e
    intro k2
    by_cases hk : k1 = k
    · subst hk
      simp [amSet]
    · simp only [amSet, if_neg hk, List.map_cons, List.mem_cons, ih k2]
      constructor
      · rintro (h | h | h)
        · exact Or.inr (Or.inl h)
        · exact Or.inl h
        · exact Or.inr (Or.inr h)
      · rintro (h | h | h)
        · exact Or.inr (Or.inl h)
        · exact Or.inl h
        · exact Or.inr (Or.inr h)

theorem amSet_nodup {K V : Type} [DecidableEq K] (k : K) (v : V) (l : List (K × V))
    (hnd : (l.map Prod.fst).Nodup) : ((amSet k v l).map Prod.fst).Nodup := by
  induction l with
  | nil => simp [amSet]
  | cons e r ih =>
    obtain ⟨k1, v1⟩ := e
    simp only [List.map_cons, List.nodup_cons] at hnd
    by_cases hk : k1 = k
    · subst hk
      simp only [amSet, if_true, List.map_cons, List.nodup_cons]
      exact hnd
    · simp only [amSet, if_neg hk, List.map_cons, List.nodup_cons]
      refine ⟨?_, ih hnd.2⟩
      intro hmem
      rcases (amSet_keys k v r k1).1 hmem with h | h
      · exact hk h
      · exact hnd.1 h

/-- The flush of a list of working copies with distinct keys, each a live account
filed under the hex key of its address: it returns, and an address then reads as
its working copy when it has one and as before otherwise. -/
theorem flush_spec (heap : Heap) (l : WorkMap) : ∀ (t : MTP),
    (l.map Prod.fst).Nodup →
    (∀ k p, (k, p) ∈ l → ∃ a, deref heap p = some a ∧ EncodeToString a.Address = k) →
    ∃ t1, flush heap l t = some t1 ∧
      ∀ address, amGet address t1 =
        match amGet (EncodeToString address) l with
        | some p => deref heap p
        | none => amGet address t := by
  induction l with
  | nil =>
    intro t _ _
    exact ⟨t, rfl, fun _ => rfl⟩
  | cons e r ih =>
    obtain ⟨k, p⟩ := e
    intro t hnd hok
    simp only [List.map_cons, List.nodup_cons] at hnd
    obtain ⟨a, ha, hk⟩ := hok k p (List.mem_cons_self _ _)
    obtain ⟨t1, hfl, hget⟩ := ih (t.MustInsert a.Address a) hnd.2
      (fun k2 p2 hm => hok k2 p2 (List.mem_cons_of_mem _ hm))
    refine ⟨t1, by simp [flush, ha, hfl], ?_⟩
    intro address
    rw [hget address]
    by_cases hka : k = EncodeToString address
    · have hadr : a.Address = address := EncodeToString_injective (hk.trans hka)
      have hnone : amGet (EncodeToString address) r = none :=
        amGet_none_of_not_mem _ _ (hka ▸ hnd.1)
      simp only [amGet, if_pos hka, hnone, MTP.MustInsert, hadr]
      rw [amGet_amSet_self, ha]
    · have hadr : a.Address ≠ address := by
        intro e
        apply hka
        rw [← hk, e]
      simp only [amGet, if_neg hka]
      cases amGet (EncodeToString address) r with
      | some q => rfl
      | none =>
        simp only [MTP.MustInsert]
        exact amGet_amSet_ne _ _ _ _ hadr

/-! ## One pass of the batch loop -/

/-- The loop body in terms of the two working copies. -/
theorem subTxStep_eq (header : Header) (heap : Heap) (m : WorkMap) (tx : SubTransaction)
    (from32 to32 : Bytes) (h1 : sliceTo32 tx.From = some from32)
    (h2 : sliceTo32 tx.To = some to32) :
    subTxStep EKTAddress GasAddress header (heap, m) tx =
      match toCopy header (fromCopy header heap m from32).1 m tx to32 with
      | none => Iter.returnFalse
      | some (heap2, toP) =>
        match HandleTx EKTAddress GasAddress heap2 (fromCopy header heap m from32).2 toP tx with
        | none => Iter.fault
        | some (false, _) => Iter.returnFalse
        | some (true, heap3) =>
          Iter.next (heap3, amSet (EncodeToString to32) toP
            (amSet (EncodeToString from32) (fromCopy header heap m from32).2 m)) := by
  unfold subTxStep
  simp only [h1, h2]
  rfl

theorem sliceTo32_eq {b x : Bytes} (h : sliceTo32 b = some x) :
    x = b.take 32 ∧ 32 ≤ b.length := by
  unfold sliceTo32 at h
  split at h
  · rename_i hl
    injection h with h
    exact ⟨h.symm, hl⟩
  · cases h

theorem debit_address {f f1 : Account} {tx : SubTransaction}
    (h : debit EKTAddress GasAddress f tx = some f1) : f1.Address = f.Address := by
  unfold debit at h
  by_cases h32 : tx.From.length = 32
  · simp only [h32, if_true] at h
    by_cases he : tx.TokenAddress = EKTAddress
    · simp only [if_pos he, Option.some.injEq] at h
      subst h; rfl
    · by_cases hg : tx.TokenAddress = GasAddress
      · simp only [if_neg he, if_pos hg, Option.some.injEq] at h
        subst h; rfl
      · simp only [if_neg he, if_neg hg] at h
        cases hw : mapWrite f.Balances tx.TokenAddress
            (wrap64 (mapRead 0 f.Balances tx.TokenAddress - tx.Amount)) with
        | none => simp [hw] at h
        | some b =>
          simp only [hw, Option.some.injEq] at h
          subst h; rfl
  · simp only [h32, if_false] at h
    cases hs : sliceFrom32 tx.From with
    | none => simp [hs] at h
    | some subAddr =>
      simp only [hs] at h
      cases hcs : f.Contracts with
      | none =>
        simp only [hcs, mapWrite] at h
        split at h <;> simp at h
      | some cs =>
        simp only [hcs, mapWrite] at h
        split at h
        · simp at h
        · simp only [Option.some.injEq] at h
          subst h
          rfl

theorem credit_address {t t1 : Account} {tx : SubTransaction}
    (h : credit EKTAddress GasAddress t tx = some t1) : t1.Address = t.Address := by
  unfold credit at h
  by_cases h32 : tx.To.length = 32
  · simp only [h32, if_true] at h
    by_cases he : tx.TokenAddress = EKTAddress
    · simp only [if_pos he, Option.some.injEq] at h
      subst h; rfl
    · by_cases hg : tx.TokenAddress = GasAddress
      · simp only [if_neg he, if_pos hg, Option.some.injEq] at h
        subst h; rfl
      · simp only [if_neg he, if_neg hg] at h
        cases hw : creditBalances t.Balances tx.TokenAddress tx.Amount with
        | none => simp [hw] at h
        | some b =>
          simp only [hw, Option.some.injEq] at h
          subst h; rfl
  · simp only [h32, if_false] at h
    cases hs : sliceFrom32 tx.To with
    | none => simp [hs] at h
    | some subAddr =>
      simp only [hs] at h
      cases hcs : t.Contracts with
      | none =>
        simp only [hcs, mapWrite] at h
        split at h <;> simp at h
      | some cs =>
        simp only [hcs, mapWrite] at h
        split at h
        · simp at h
        · simp only [Option.some.injEq] at h
          subst h
          rfl

/-- A credit through a sub-account address faults on an owner without contracts. -/
theorem credit_nil_contracts {t : Account} {tx : SubTransaction} (hlen : tx.To.length ≠ 32)
    (hc : t.Contracts = none) : credit EKTAddress GasAddress t tx = none := by
  cases h : credit EKTAddress GasAddress t tx with
  | none => rfl
  | some t1 =>
    exfalso
    unfold credit at h
    simp only [if_neg hlen] at h
    cases hs : sliceFrom32 tx.To with
    | none => simp [hs] at h
    | some subAddr =>
      simp only [hs, hc, mapWrite] at h
      split at h <;> simp at h

/-- Writing an account with the same address through a live pointer keeps every
pointer live and every address in place. -/
theorem store_keeps_addresses {heap heap1 : Heap} {q : Ptr} {x y : Account}
    (hs : store heap q x = some heap1) (hq : deref heap q = some y)
    (hxy : x.Address = y.Address) :
    ∀ p a, deref heap p = some a → ∃ a1, deref heap1 p = some a1 ∧ a1.Address = a.Address := by
  intro p a hp
  by_cases hpq : p = q
  · subst hpq
    rw [hq] at hp
    injection hp with hp
    subst hp
    exact ⟨x, deref_store_same hs, hxy⟩
  · exact ⟨a, by rw [deref_store_other hs hpq]; exact hp, rfl⟩

/-- `HandleTx` keeps every pointer live and every address in place. -/
theorem HandleTx_keeps_addresses {heap heap1 : Heap} {fromP toP : Ptr} {tx : SubTransaction}
    {b : Bool} (h : HandleTx EKTAddress GasAddress heap fromP toP tx = some (b, heap1)) :
    ∀ p a, deref heap p = some a → ∃ a1, deref heap1 p = some a1 ∧ a1.Address = a.Address := by
  cases b with
  | false =>
    unfold HandleTx at h
    cases hc : CheckSubTx EKTAddress GasAddress heap fromP tx with
    | none => simp [hc] at h
    | some c =>
      cases c with
      | false =>
        simp only [hc, Option.some.injEq, Prod.mk.injEq, true_and] at h
        subst h
        exact fun p a hp => ⟨a, hp, rfl⟩
      | true =>
        simp only [hc] at h
        obtain ⟨_, _, _, _, _, _, _, _, _, _, _, hb⟩ := Transfer_inv EKTAddress GasAddress h
        cases hb
  | true =>
    obtain ⟨_, hT⟩ := HandleTx_true_inv EKTAddress GasAddress h
    obtain ⟨f, f1, hmid, t, t1, hf, hd, hs1, ht, hc, hs2, _⟩ :=
      Transfer_inv EKTAddress GasAddress hT
    intro p a hp
    obtain ⟨a1, hp1, ha1⟩ :=
      store_keeps_addresses hs1 hf (debit_address EKTAddress GasAddress hd) p a hp
    obtain ⟨a2, hp2, ha2⟩ :=
      store_keeps_addresses hs2 ht (credit_address EKTAddress GasAddress hc) p a1 hp1
    exact ⟨a2, hp2, ha2.trans ha1⟩

theorem resolveTo_some {header : Header} {tx : SubTransaction} {to32 : Bytes} {x : Account}
    (h : resolveTo header tx to32 = some x) :
    header.GetAccount to32 = some x ∨ (x = NewAccount tx.To ∧ tx.To.length ≠ 64) := by
  unfold resolveTo at h
  cases hg : header.GetAccount to32 with
  | some a =>
    simp only [hg] at h
    left
    by_cases h64 : tx.To.length = 64
    · simp only [h64, if_true] at h
      split at h
      · cases h
      · split at h
        · exact h
        · cases h
    · simp only [h64, if_false] at h
      exact h
  | none =>
    right
    simp only [hg] at h
    by_cases h64 : tx.To.length = 64
    · simp [h64] at h
    · simp only [h64, if_false, Option.some.injEq] at h
      exact ⟨h.symm, h64⟩

/-- The payer working copy: the heap only grows, and a live payer copy carries the
payer's 32-byte address. -/
theorem fromCopy_spec (header : Header) (heap : Heap) (m : WorkMap) (from32 : Bytes)
    (hwf : header.StatTree.WellFormed) (hok : WorkMapOk heap m) :
    (∀ p a, deref heap p = some a → deref (fromCopy header heap m from32).1 p = some a) ∧
    (∀ f, deref (fromCopy header heap m from32).1 (fromCopy header heap m from32).2 = some f →
      EncodeToString f.Address = EncodeToString from32) := by
  unfold fromCopy
  cases hg : amGet (EncodeToString from32) m with
  | some p =>
    refine ⟨fun p a h => h, ?_⟩
    intro f hf
    obtain ⟨a, ha, hk⟩ := hok _ p hg
    have hf2 : deref heap p = some f := hf
    rw [ha] at hf2
    injection hf2 with hf2
    rw [← hf2]
    exact hk
  | none =>
    cases ha : header.GetAccount from32 with
    | some a =>
      refine ⟨fun p b h => deref_append h _, ?_⟩
      intro f hf
      have hf2 : deref (alloc heap a).1 (alloc heap a).2 = some f := hf
      rw [deref_alloc] at hf2
      injection hf2 with hf2
      rw [← hf2, hwf from32 a ha]
    | none =>
      refine ⟨fun p a h => h, ?_⟩
      intro f hf
      have hf2 : deref heap none = some f := hf
      simp [deref] at hf2

/-- The payee working copy: the heap only grows, and the payee copy is live; it
carries the payee's 32-byte address unless it is a new account made for a `to`
that is not 32 bytes long, which has no contracts map and a fresh pointer. -/
theorem toCopy_spec (header : Header) (heap1 heap2 : Heap) (m : WorkMap) (tx : SubTransaction)
    (to32 : Bytes) (toP : Ptr) (hwf : header.StatTree.WellFormed) (hok : WorkMapOk heap1 m)
    (hto : sliceTo32 tx.To = some to32)
    (h : toCopy header heap1 m tx to32 = some (heap2, toP)) :
    (∀ p a, deref heap1 p = some a → deref heap2 p = some a) ∧
    ∃ t, deref heap2 toP = some t ∧
      (EncodeToString t.Address = EncodeToString to32 ∨
        (t.Contracts = none ∧ tx.To.length ≠ 32 ∧ ∀ q b, deref heap1 q = some b → q ≠ toP)) := by
  unfold toCopy at h
  cases hg : amGet (EncodeToString to32) m with
  | some p =>
    simp only [hg, Option.some.injEq, Prod.mk.injEq] at h
    obtain ⟨h1, h2⟩ := h
    subst h1
    subst h2
    obtain ⟨a, ha, hk⟩ := hok _ p hg
    exact ⟨fun p a h => h, a, ha, Or.inl hk⟩
  | none =>
    simp only [hg] at h
    cases hr : resolveTo header tx to32 with
    | none => simp [hr] at h
    | some x =>
      simp only [hr, Option.some.injEq] at h
      have h1 : heap2 = (alloc heap1 x).1 := (congrArg Prod.fst h).symm
      have h2 : toP = (alloc heap1 x).2 := (congrArg Prod.snd h).symm
      subst h1
      subst h2
      refine ⟨fun p b hb => deref_append hb _, x, deref_alloc heap1 x, ?_⟩
      rcases resolveTo_some hr with hacc | ⟨hnew, _⟩
      · left
        rw [hwf to32 x hacc]
      · by_cases h32 : tx.To.length = 32
        · left
          have := (sliceTo32_eq hto).1
          rw [hnew, this]
          simp only [NewAccount]
          rw [List.take_of_length_le (by omega)]
        · right
          refine ⟨by rw [hnew]; rfl, h32, ?_⟩
          intro q b hq hqe
          subst hqe
          have := deref_lt hq
          omega

/-- One pass of the loop that goes on keeps the working-copy map sound, and files
the two copies under the keys of the payer and the payee. -/
theorem subTxStep_next (header : Header) (hwf : header.StatTree.WellFormed)
    (heap heap3 : Heap) (m m3 : WorkMap) (tx : SubTransaction) (hok : WorkMapOk heap m)
    (h : subTxStep EKTAddress GasAddress header (heap, m) tx = Iter.next (heap3, m3)) :
    WorkMapOk heap3 m3 ∧
    ∃ fromP toP, m3 = amSet (EncodeToString (tx.To.take 32)) toP
      (amSet (EncodeToString (tx.From.take 32)) fromP m) := by
  cases h1 : sliceTo32 tx.From with
  | none => simp [subTxStep, h1] at h
  | some from32 =>
    cases h2 : sliceTo32 tx.To with
    | none => simp [subTxStep, h1, h2] at h
    | some to32 =>
      rw [subTxStep_eq EKTAddress GasAddress header heap m tx from32 to32 h1 h2] at h
      obtain ⟨hgrow1, hfrom⟩ := fromCopy_spec header heap m from32 hwf hok
      have hok1 : WorkMapOk (fromCopy header heap m from32).1 m := by
        intro k p hk
        obtain ⟨a, ha, hka⟩ := hok k p hk
        exact ⟨a, hgrow1 p a ha, hka⟩
      cases htc : toCopy header (fromCopy header heap m from32).1 m tx to32 with
      | none => simp [htc] at h
      | some r =>
        obtain ⟨heap2, toP⟩ := r
        simp only [htc] at h
        obtain ⟨hgrow2, t, ht, htaddr⟩ :=
          toCopy_spec header _ heap2 m tx to32 toP hwf hok1 h2 htc
        cases hH : HandleTx EKTAddress GasAddress heap2 (fromCopy header heap m from32).2 toP tx with
        | none => simp [hH] at h
        | some r2 =>
          obtain ⟨b, heapR⟩ := r2
          cases b with
          | false => simp [hH] at h
          | true =>
            simp only [hH, Iter.next.injEq, Prod.mk.injEq] at h
            obtain ⟨hh3, hm3⟩ := h
            subst hh3
            obtain ⟨hchk, hT⟩ := HandleTx_true_inv EKTAddress GasAddress hH
            obtain ⟨f, f1, hmid, t0, t1, hf, hd, hs1, ht0, hc, hs2, _⟩ :=
              Transfer_inv EKTAddress GasAddress hT
            have hkeep := HandleTx_keeps_addresses EKTAddress GasAddress hH
            -- the payer copy is live already before the payee copy is made
            have hf1 : deref (fromCopy header heap m from32).1 (fromCopy header heap m from32).2
                = some f := by
              cases hp : (fromCopy header heap m from32).2 with
              | none => rw [hp] at hf; simp [deref] at hf
              | some i =>
                cases hd1 : deref (fromCopy header heap m from32).1 (some i) with
                | some f0 =>
                  have := hgrow2 _ _ hd1
                  rw [hp] at hf
                  rw [this] at hf
                  exact hf
                | none =>
                  exfalso
                  -- a pointer that is not live before can only be nil or the fresh payee
                  unfold fromCopy at hp hd1
                  cases hg : amGet (EncodeToString from32) m with
                  | some p =>
                    simp only [hg] at hp hd1
                    obtain ⟨a, ha, _⟩ := hok _ p hg
                    rw [hp] at ha
                    rw [ha] at hd1
                    cases hd1
                  | none =>
                    simp only [hg] at hp hd1
                    cases ha : header.GetAccount from32 with
                    | some a =>
                      simp only [ha] at hp hd1
                      have := deref_alloc heap a
                      rw [hp] at this
                      rw [this] at hd1
                      cases hd1
                    | none =>
                      simp only [ha] at hp
                      cases hp
            have hfaddr := hfrom f hf1
            have htaddr2 : EncodeToString t.Address = EncodeToString to32 := by
              rcases htaddr with h | ⟨hnil, hlen, hfresh⟩
              · exact h
              · exfalso
                have hne : toP ≠ (fromCopy header heap m from32).2 :=
                  fun e => hfresh _ f hf1 e.symm
                rw [deref_store_other hs1 hne, ht] at ht0
                injection ht0 with ht0
                subst ht0
                rw [credit_nil_contracts EKTAddress GasAddress hlen hnil] at hc
                cases hc
            have e1 := (sliceTo32_eq h1).1
            have e2 := (sliceTo32_eq h2).1
            subst e1
            subst e2
            refine ⟨?_, _, _, hm3.symm⟩
            intro k p hk
            rw [← hm3] at hk
            rw [amGet_amSet] at hk
            by_cases hkt : EncodeToString (tx.To.take 32) = k
            · rw [if_pos hkt] at hk
              injection hk with hk
              subst hk
              obtain ⟨a1, ha1, haddr⟩ := hkeep _ t ht
              exact ⟨a1, ha1, by rw [haddr, htaddr2, hkt]⟩
            · rw [if_neg hkt, amGet_amSet] at hk
              by_cases hkf : EncodeToString (tx.From.take 32) = k
              · rw [if_pos hkf] at hk
                injection hk with hk
                subst hk
                obtain ⟨a1, ha1, haddr⟩ := hkeep _ f hf
                exact ⟨a1, ha1, by rw [haddr, hfaddr, hkf]⟩
              · rw [if_neg hkf] at hk
                obtain ⟨a, ha, hka⟩ := hok k p hk
                obtain ⟨a1, ha1, haddr⟩ := hkeep _ a (hgrow2 _ _ (hgrow1 _ _ ha))
                exact ⟨a1, ha1, by rw [haddr, hka]⟩

theorem amGet_of_mem_keys {K V : Type} [DecidableEq K] {k : K} {l : List (K × V)}
    (h : k ∈ l.map Prod.fst) : ∃ v, amGet k l = some v := by
  cases hg : amGet k l with
  | some v => exact ⟨v, rfl⟩
  | none =>
    exfalso
    induction l with
    | nil => simp at h
    | cons e r ih =>
      obtain ⟨k1, v1⟩ := e
      simp only [amGet] at hg
      by_cases hk : k1 = k
      · rw [if_pos hk] at hg
        cases hg
      · rw [if_neg hk] at hg
        simp only [List.map_cons, List.mem_cons] at h
        rcases h with h | h
        · exact hk h.symm
        · exact ih h hg

theorem mem_keys_of_amGet_some {K V : Type} [DecidableEq K] {k : K} {v : V} {l : List (K × V)}
    (h : amGet k l = some v) : k ∈ l.map Prod.fst :=
  List.mem_map.2 ⟨(k, v), mem_keys_of_amGet h, rfl⟩

theorem amGet_perm {K V : Type} [DecidableEq K] {l1 l2 : List (K × V)} (hp : List.Perm l1 l2)
    (hnd : (l2.map Prod.fst).Nodup) (k : K) : amGet k l1 = amGet k l2 := by
  have hnd1 : (l1.map Prod.fst).Nodup := (List.Perm.nodup_iff (List.Perm.map _ hp)).2 hnd
  cases h2 : amGet k l2 with
  | some v => exact amGet_of_mem_nodup hnd1 (hp.mem_iff.2 (mem_keys_of_amGet h2))
  | none =>
    cases h1 : amGet k l1 with
    | none => rfl
    | some v =>
      have := amGet_of_mem_nodup hnd (hp.mem_iff.1 (mem_keys_of_amGet h1))
      rw [h2] at this
      cases this

/-- A loop that runs to its end keeps the working-copy map sound and with distinct
keys, and files exactly the owners the batch names. -/
theorem subTxLoop_next (header : Header) (hwf : header.StatTree.WellFormed) :
    ∀ (txs : List SubTransaction) (heap heap1 : Heap) (m m1 : WorkMap),
      WorkMapOk heap m → (m.map Prod.fst).Nodup →
      subTxLoop EKTAddress GasAddress header (heap, m) txs = Iter.next (heap1, m1) →
      WorkMapOk heap1 m1 ∧ (m1.map Prod.fst).Nodup ∧
      ∀ k, k ∈ m1.map Prod.fst ↔
        (k ∈ m.map Prod.fst ∨ k ∈ (namedOwners txs).map EncodeToString) := by
  intro txs
  induction txs with
  | nil =>
    intro heap heap1 m m1 hok hnd h
    simp only [subTxLoop, Iter.next.injEq, Prod.mk.injEq] at h
    obtain ⟨h1, h2⟩ := h
    subst h1
    subst h2
    exact ⟨hok, hnd, fun k => by simp [namedOwners]⟩
  | cons tx rest ih =>
    intro heap heap1 m m1 hok hnd h
    simp only [subTxLoop] at h
    cases hs : subTxStep EKTAddress GasAddress header (heap, m) tx with
    | fault => simp [hs] at h
    | returnFalse => simp [hs] at h
    | next s =>
      obtain ⟨heap2, m2⟩ := s
      simp only [hs] at h
      obtain ⟨hok2, fromP, toP, hm2⟩ :=
        subTxStep_next EKTAddress GasAddress header hwf heap heap2 m m2 tx hok hs
      have hnd2 : (m2.map Prod.fst).Nodup := by
        rw [hm2]
        exact amSet_nodup _ _ _ (amSet_nodup _ _ _ hnd)
      obtain ⟨hok1, hnd1, hkeys⟩ := ih heap2 heap1 m2 m1 hok2 hnd2 h
      refine ⟨hok1, hnd1, ?_⟩
      intro k
      rw [hkeys k, hm2, amSet_keys, amSet_keys]
      simp only [namedOwners, List.flatMap_cons, List.map_append, List.mem_append, List.map_cons,
        List.map_nil, List.mem_cons, List.mem_singleton, List.not_mem_nil, or_false]
      constructor
      · rintro ((h | h | h) | h)
        · exact Or.inr (Or.inl (Or.inr h))
        · exact Or.inr (Or.inl (Or.inl h))
        · exact Or.inl h
        · exact Or.inr (Or.inr h)
      · rintro (h | (h | h) | h)
        · exact Or.inl (Or.inr (Or.inr h))
        · exact Or.inl (Or.inr (Or.inl h))
        · exact Or.inl (Or.inl h)
        · exact Or.inr h

/-- The state after a batch that returned true, read through the final
working-copy map: an address reads as its working copy when it has one and as
before otherwise, whatever the order of the flush. -/
theorem NewSubTransaction_true (header h1 : Header) (txs : List SubTransaction)
    (hwf : header.StatTree.WellFormed)
    (h : NewSubTransaction EKTAddress GasAddress header txs = some (true, h1)) :
    ∃ heap m, subTxLoop EKTAddress GasAddress header ([], []) txs = Iter.next (heap, m) ∧
      WorkMapOk heap m ∧ (m.map Prod.fst).Nodup ∧
      (∀ k, k ∈ m.map Prod.fst ↔ k ∈ (namedOwners txs).map EncodeToString) ∧
      h1 = { header with StatTree := h1.StatTree } ∧
      (∀ address, h1.GetAccount address =
        match amGet (EncodeToString address) m with
        | some p => deref heap p
        | none => header.GetAccount address) ∧
      (∀ order, List.Perm order m → ∃ t, flush heap order header.StatTree = some t ∧
        ∀ address, t.GetValue address = h1.GetAccount address) := by
  unfold NewSubTransaction at h
  cases hl : subTxLoop EKTAddress GasAddress header ([], []) txs with
  | fault => simp [hl] at h
  | returnFalse => simp [hl] at h
  | next s =>
    obtain ⟨heap, m⟩ := s
    simp only [hl] at h
    have hok0 : WorkMapOk [] [] := by
      intro k p hk
      simp [amGet] at hk
    obtain ⟨hok, hnd, hkeys⟩ :=
      subTxLoop_next EKTAddress GasAddress header hwf txs [] heap [] m hok0 (by simp) hl
    have hmem : ∀ (l : WorkMap), List.Perm l m → ∀ k p, (k, p) ∈ l →
        ∃ a, deref heap p = some a ∧ EncodeToString a.Address = k := by
      intro l hp k p hkp
      exact hok k p (amGet_of_mem_nodup hnd (hp.mem_iff.1 hkp))
    obtain ⟨t, hfl, hread⟩ := flush_spec heap m header.StatTree hnd (hmem m (List.Perm.refl _))
    simp only [hfl, Option.some.injEq, Prod.mk.injEq, true_and] at h
    subst h
    refine ⟨heap, m, rfl, hok, hnd, ?_, rfl, ?_, ?_⟩
    · intro k
      rw [hkeys k]
      simp
    · intro address
      exact hread address
    · intro order hp
      have hndo : (order.map Prod.fst).Nodup := (List.Perm.nodup_iff (List.Perm.map _ hp)).2 hnd
      obtain ⟨t2, hfl2, hread2⟩ := flush_spec heap order header.StatTree hndo (hmem order hp)
      refine ⟨t2, hfl2, ?_⟩
      intro address
      show amGet address t2 = amGet address t
      rw [hread2 address, hread address, amGet_perm hp hnd]

/-! ## C17: the commit of a successful batch -/

/-- C17. Over a well-formed state tree, when `NewSubTransaction` returns true the
tree afterwards is the tree before with the entry of every owner address the batch
names (first 32 bytes of a `from` or `to`) replaced by its final working copy, and
every other entry unchanged; flushing the working-copy map in any other order gives
a tree that reads the same at every address; the other header fields are untouched. -/
theorem C17_commit_exact (header h1 : Header) (txs : List SubTransaction)
    (hwf : header.StatTree.WellFormed)
    (h : NewSubTransaction EKTAddress GasAddress header txs = some (true, h1)) :
    ∃ heap m, subTxLoop EKTAddress GasAddress header ([], []) txs = Iter.next (heap, m) ∧
      (∀ address, address ∈ namedOwners txs →
        ∃ p a, amGet (EncodeToString address) m = some p ∧ deref heap p = some a ∧
          a.Address = address ∧ h1.GetAccount address = some a) ∧
      (∀ address, address ∉ namedOwners txs →
        h1.GetAccount address = header.GetAccount address) ∧
      (∀ order, List.Perm order m → ∃ t, flush heap order header.StatTree = some t ∧
        ∀ address, t.GetValue address = h1.GetAccount address) ∧
      h1 = { header with StatTree := h1.StatTree } := by
  obtain ⟨heap, m, hl, hok, hnd, hkeys, hfields, hread, horder⟩ :=
    NewSubTransaction_true EKTAddress GasAddress header h1 txs hwf h
  refine ⟨heap, m, hl, ?_, ?_, horder, hfields⟩
  · intro address hmem
    have hk : EncodeToString address ∈ m.map Prod.fst :=
      (hkeys _).2 (List.mem_map.2 ⟨address, hmem, rfl⟩)
    obtain ⟨p, hp⟩ := amGet_of_mem_keys hk
    obtain ⟨a, ha, haddr⟩ := hok _ p hp
    refine ⟨p, a, hp, ha, EncodeToString_injective haddr, ?_⟩
    rw [hread address, hp]
    exact ha
  · intro address hmem
    have hk : EncodeToString address ∉ m.map Prod.fst := by
      intro hk
      obtain ⟨b, hb, hbe⟩ := List.mem_map.1 ((hkeys _).1 hk)
      rw [EncodeToString_injective hbe] at hb
      exact hmem hb
    rw [hread address, amGet_none_of_not_mem _ _ hk]

/-! ## Plain batches against their sequential reading -/

/-- `HandleTx` on a heap of exactly the payer and the payee. -/
theorem HandleTx_pair (f t : Account) (tx : SubTransaction) :
    HandleTx EKTAddress GasAddress [f, t] (some 0) (some 1) tx =
      match checkPayer EKTAddress GasAddress f tx with
      | none => none
      | some false => some (false, [f, t])
      | some true =>
        match debit EKTAddress GasAddress f tx with
        | none => none
        | some f1 =>
          match credit EKTAddress GasAddress t tx with
          | none => none
          | some t1 => some (true, [f1, t1]) := by
  unfold HandleTx CheckSubTx
  simp only [deref, List.getElem?_cons_zero]
  cases hc : checkPayer EKTAddress GasAddress f tx with
  | none => rfl
  | some b =>
    cases b with
    | false => rfl
    | true =>
      simp only [Transfer, deref, List.getElem?_cons_zero]
      cases hd : debit EKTAddress GasAddress f tx with
      | none => rfl
      | some f1 =>
        simp only [store, List.length_cons, List.length_nil, Nat.zero_lt_succ, if_true,
          List.set_cons_zero, deref, List.getElem?_cons_succ, List.getElem?_cons_zero]
        cases hcr : credit EKTAddress GasAddress t tx with
        | none => rfl
        | some t1 =>
          simp [store]

/-- `HandleTx` on two distinct live accounts of any heap. -/
theorem HandleTx_distinct {heap : Heap} {fromP toP : Ptr} {f t : Account} (tx : SubTransaction)
    (hne : fromP ≠ toP) (hf : deref heap fromP = some f) (ht : deref heap toP = some t) :
    (checkPayer EKTAddress GasAddress f tx = some false →
      HandleTx EKTAddress GasAddress heap fromP toP tx = some (false, heap)) ∧
    (∀ f1 t1, checkPayer EKTAddress GasAddress f tx = some true →
      debit EKTAddress GasAddress f tx = some f1 → credit EKTAddress GasAddress t tx = some t1 →
      ∃ heap1, HandleTx EKTAddress GasAddress heap fromP toP tx = some (true, heap1) ∧
        deref heap1 fromP = some f1 ∧ deref heap1 toP = some t1 ∧
        ∀ q, q ≠ fromP → q ≠ toP → deref heap1 q = deref heap q) := by
  constructor
  · intro hc
    simp [HandleTx, CheckSubTx, hf, hc]
  · intro f1 t1 hc hd hcr
    obtain ⟨h1, hs1⟩ := store_of_deref hf f1
    have ht1 : deref h1 toP = some t := by
      rw [deref_store_other hs1 (fun e => hne e.symm)]
      exact ht
    obtain ⟨h2, hs2⟩ := store_of_deref ht1 t1
    refine ⟨h2, by simp [HandleTx, CheckSubTx, hf, hc, Transfer, hd, hs1, ht1, hcr, hs2], ?_,
      deref_store_same hs2, ?_⟩
    · rw [deref_store_other hs2 hne]
      exact deref_store_same hs1
    · intro q hq1 hq2
      rw [deref_store_other hs2 hq2, deref_store_other hs1 hq1]

theorem checkPayer_32 {f : Account} {tx : SubTransaction} (hfrom : tx.From.length = 32) :
    ∃ b, checkPayer EKTAddress GasAddress f tx = some b := by
  simp only [checkPayer, hfrom, if_true]
  by_cases he : tx.TokenAddress = EKTAddress
  · exact ⟨_, by rw [if_pos he]⟩
  · by_cases hg : tx.TokenAddress = GasAddress
    · exact ⟨_, by rw [if_neg he, if_pos hg]⟩
    · rw [if_neg he, if_neg hg]
      split
      · exact ⟨true, rfl⟩
      · exact ⟨false, rfl⟩

theorem sliceTo32_of_length {b : Bytes} (h : b.length = 32) : sliceTo32 b = some b := by
  simp [sliceTo32, h, List.take_of_length_le (Nat.le_of_eq h)]

theorem resolveTo_32 (header : Header) (tx : SubTransaction) (hto : tx.To.length = 32) :
    resolveTo header tx tx.To = some ((header.GetAccount tx.To).getD (NewAccount tx.To)) := by
  unfold resolveTo
  have h64 : ¬ tx.To.length = 64 := by omega
  cases header.GetAccount tx.To with
  | none => simp [h64]
  | some a => simp [h64]

/-- The sequential step of a plain transfer in terms of check, debit and credit. -/
theorem seqStep_eq (st : MTP) (tx : SubTransaction) (f : Account)
    (hf : st.GetValue tx.From = some f) :
    seqStep EKTAddress GasAddress st tx =
      match checkPayer EKTAddress GasAddress f tx with
      | some true =>
        match debit EKTAddress GasAddress f tx with
        | none => none
        | some f1 =>
          match credit EKTAddress GasAddress ((st.GetValue tx.To).getD (NewAccount tx.To)) tx with
          | none => none
          | some t1 => some ((st.MustInsert tx.From f1).MustInsert tx.To t1)
      | _ => none := by
  unfold seqStep
  simp only [hf]
  rw [HandleTx_pair]
  cases hc : checkPayer EKTAddress GasAddress f tx with
  | none => rfl
  | some b =>
    cases b with
    | false => rfl
    | true =>
      cases hd : debit EKTAddress GasAddress f tx with
      | none => rfl
      | some f1 =>
        cases hcr : credit EKTAddress GasAddress
            ((st.GetValue tx.To).getD (NewAccount tx.To)) tx with
        | none => rfl
        | some t1 => rfl

/-- One pass of the loop on a plain transfer (32-byte `from` and `to`, different
from each other, payer stored) follows the sequential step: it goes on exactly when
the step succeeds, and the working copies then agree with the new running state;
otherwise it ends the batch with `return false`. -/
theorem subTxStep_plain (header : Header) (hwf : header.StatTree.WellFormed)
    (heap : Heap) (m : WorkMap) (st : MTP) (tx : SubTransaction)
    (hsim : SimOk header heap m st) (hfrom : tx.From.length = 32) (hto : tx.To.length = 32)
    (hne : tx.From ≠ tx.To) (hpayer : header.GetAccount tx.From ≠ none) :
    (∀ st1, seqStep EKTAddress GasAddress st tx = some st1 →
      ∃ heap1 m1, subTxStep EKTAddress GasAddress header (heap, m) tx = Iter.next (heap1, m1) ∧
        SimOk header heap1 m1 st1) ∧
    (seqStep EKTAddress GasAddress st tx = none →
      subTxStep EKTAddress GasAddress header (heap, m) tx = Iter.returnFalse) := by
  obtain ⟨hnd, hent, hoth⟩ := hsim
  rw [subTxStep_eq EKTAddress GasAddress header heap m tx tx.From tx.To
    (sliceTo32_of_length hfrom) (sliceTo32_of_length hto)]
  have hP : ∃ f, st.GetValue tx.From = some f ∧ f.Address = tx.From ∧
      deref (fromCopy header heap m tx.From).1 (fromCopy header heap m tx.From).2 = some f ∧
      (∀ p a, deref heap p = some a → deref (fromCopy header heap m tx.From).1 p = some a) := by
    unfold fromCopy
    cases hg : amGet (EncodeToString tx.From) m with
    | some p =>
      obtain ⟨a, ha, hk, hst⟩ := hent _ p hg
      have hadr := EncodeToString_injective hk
      exact ⟨a, by rw [← hadr]; exact hst, hadr, ha, fun p a h => h⟩
    | none =>
      have hst := hoth tx.From hg
      cases ha : header.GetAccount tx.From with
      | none => exact absurd ha hpayer
      | some a =>
        exact ⟨a, by rw [hst, ha], hwf _ a ha, deref_alloc heap a,
          fun p b h => deref_append h _⟩
  obtain ⟨f, hstf, hfaddr, hfd, hgrow1⟩ := hP
  generalize fromCopy header heap m tx.From = fc at hfd hgrow1 ⊢
  obtain ⟨heap1, fromP⟩ := fc
  simp only at hfd hgrow1 ⊢
  have hT : ∃ heap2 toP, toCopy header heap1 m tx tx.To = some (heap2, toP) ∧
      deref heap2 toP = some ((st.GetValue tx.To).getD (NewAccount tx.To)) ∧
      ((st.GetValue tx.To).getD (NewAccount tx.To)).Address = tx.To ∧
      (∀ p a, deref heap1 p = some a → deref heap2 p = some a) := by
    unfold toCopy
    cases hg : amGet (EncodeToString tx.To) m with
    | some q =>
      obtain ⟨b, hb, hk, hst⟩ := hent _ q hg
      have hba := EncodeToString_injective hk
      rw [hba] at hst
      refine ⟨heap1, q, rfl, ?_, ?_, fun p a h => h⟩
      · rw [hst]
        exact hgrow1 q b hb
      · rw [hst]
        exact hba
    | none =>
      have hst := hoth tx.To hg
      simp only [resolveTo_32 header tx hto, hst]
      refine ⟨_, _, rfl, deref_alloc _ _, ?_, fun p a h => deref_append h _⟩
      cases ha : header.GetAccount tx.To with
      | none => rfl
      | some b => exact hwf _ b ha
  obtain ⟨heap2, toP, htc, htd, htaddr, hgrow2⟩ := hT
  have hfd2 := hgrow2 _ _ hfd
  have hpne : fromP ≠ toP := by
    intro e
    rw [e, htd] at hfd2
    injection hfd2 with hfd2
    apply hne
    rw [← hfaddr, ← hfd2, htaddr]
  obtain ⟨hHfalse, hHtrue⟩ := HandleTx_distinct EKTAddress GasAddress tx hpne hfd2 htd
  rw [seqStep_eq EKTAddress GasAddress st tx f hstf]
  simp only [htc]
  obtain ⟨b, hb⟩ := checkPayer_32 EKTAddress GasAddress (f := f) hfrom
  cases b with
  | false =>
    rw [hb, hHfalse hb]
    constructor
    · intro st1 h
      cases h
    · intro _
      rfl
  | true =>
    obtain ⟨f1, hd, _, hfa⟩ := debit_32_effect EKTAddress GasAddress hfrom hb
    obtain ⟨t1, hcr, _, hta⟩ := credit_32_effect EKTAddress GasAddress
      ((st.GetValue tx.To).getD (NewAccount tx.To)) hto
    obtain ⟨heap3, hH, hf3, ht3, hrest⟩ := hHtrue f1 t1 hb hd hcr
    simp only [hb, hd, hcr, hH]
    refine ⟨?_, fun h => by cases h⟩
    intro st1 hst1
    injection hst1 with hst1
    subst hst1
    have hkne : EncodeToString tx.To ≠ EncodeToString tx.From :=
      fun e => hne (EncodeToString_injective e).symm
    refine ⟨heap3, _, rfl, amSet_nodup _ _ _ (amSet_nodup _ _ _ hnd), ?_, ?_⟩
    · intro k p hk
      rw [amGet_amSet] at hk
      by_cases hkt : EncodeToString tx.To = k
      · rw [if_pos hkt] at hk
        injection hk with hk
        subst hk
        refine ⟨t1, ht3, by rw [hta.1, htaddr, hkt], ?_⟩
        rw [hta.1, htaddr]
        exact amGet_amSet_self _ _ _
      · rw [if_neg hkt, amGet_amSet] at hk
        by_cases hkf : EncodeToString tx.From = k
        · rw [if_pos hkf] at hk
          injection hk with hk
          subst hk
          refine ⟨f1, hf3, by rw [hfa.1, hfaddr, hkf], ?_⟩
          rw [hfa.1, hfaddr]
          show amGet tx.From (amSet tx.To t1 (amSet tx.From f1 st)) = some f1
          rw [amGet_amSet_ne _ _ _ _ (fun e => hne e.symm)]
          exact amGet_amSet_self _ _ _
        · rw [if_neg hkf] at hk
          obtain ⟨a, ha, hka, hsta⟩ := hent k p hk
          have ha2 := hgrow2 _ _ (hgrow1 _ _ ha)
          have hp1 : p ≠ fromP := by
            intro e
            rw [e, hfd2] at ha2
            injection ha2 with ha2
            apply hkf
            rw [← hka, ← ha2, hfaddr]
          have hp2 : p ≠ toP := by
            intro e
            rw [e, htd] at ha2
            injection ha2 with ha2
            apply hkt
            rw [← hka, ← ha2, htaddr]
          refine ⟨a, by rw [hrest p hp1 hp2]; exact ha2, hka, ?_⟩
          have ha1 : tx.To ≠ a.Address := by
            intro e
            apply hkt
            rw [← hka, e]
          have ha3 : tx.From ≠ a.Address := by
            intro e
            apply hkf
            rw [← hka, e]
          show amGet a.Address (amSet tx.To t1 (amSet tx.From f1 st)) = some a
          rw [amGet_amSet_ne _ _ _ _ ha1, amGet_amSet_ne _ _ _ _ ha3]
          exact hsta
    · intro address hnone
      rw [amGet_amSet] at hnone
      by_cases hkt : EncodeToString tx.To = EncodeToString address
      · rw [if_pos hkt] at hnone
        cases hnone
      · rw [if_neg hkt, amGet_amSet] at hnone
        by_cases hkf : EncodeToString tx.From = EncodeToString address
        · rw [if_pos hkf] at hnone
          cases hnone
        · rw [if_neg hkf] at hnone
          have ha1 : tx.To ≠ address := fun e => hkt (by rw [e])
          have ha3 : tx.From ≠ address := fun e => hkf (by rw [e])
          show amGet address (amSet tx.To t1 (amSet tx.From f1 st)) = _
          rw [amGet_amSet_ne _ _ _ _ ha1, amGet_amSet_ne _ _ _ _ ha3]
          exact hoth address hnone

/-- The loop on a batch of plain transfers follows the sequential fold. -/
theorem subTxLoop_plain (header : Header) (hwf : header.StatTree.WellFormed) :
    ∀ (txs : List SubTransaction) (heap : Heap) (m : WorkMap) (st : MTP),
      SimOk header heap m st →
      (∀ tx ∈ txs, tx.From.length = 32 ∧ tx.To.length = 32 ∧ tx.From ≠ tx.To) →
      (∀ tx ∈ txs, header.GetAccount tx.From ≠ none) →
      (∀ st1, seqApply EKTAddress GasAddress st txs = some st1 →
        ∃ heap1 m1, subTxLoop EKTAddress GasAddress header (heap, m) txs = Iter.next (heap1, m1) ∧
          SimOk header heap1 m1 st1) ∧
      (seqApply EKTAddress GasAddress st txs = none →
        subTxLoop EKTAddress GasAddress header (heap, m) txs = Iter.returnFalse) := by
  intro txs
  induction txs with
  | nil =>
    intro heap m st hsim _ _
    constructor
    · intro st1 h
      simp only [seqApply, Option.some.injEq] at h
      subst h
      exact ⟨heap, m, rfl, hsim⟩
    · intro h
      simp [seqApply] at h
  | cons tx rest ih =>
    intro heap m st hsim hplain hpayer
    obtain ⟨hp1, hp2, hp3⟩ := hplain tx (List.mem_cons_self _ _)
    obtain ⟨hgo, hstop⟩ := subTxStep_plain EKTAddress GasAddress header hwf heap m st tx hsim
      hp1 hp2 hp3 (hpayer tx (List.mem_cons_self _ _))
    cases hs : seqStep EKTAddress GasAddress st tx with
    | none =>
      simp only [seqApply, hs, subTxLoop, hstop hs]
      constructor
      · intro st1 h
        cases h
      · intro _
        trivial
    | some st2 =>
      obtain ⟨heap2, m2, hstep, hsim2⟩ := hgo st2 hs
      simp only [seqApply, hs, subTxLoop, hstep]
      exact ih heap2 m2 st2 hsim2
        (fun tx2 h2 => hplain tx2 (List.mem_cons_of_mem _ h2))
        (fun tx2 h2 => hpayer tx2 (List.mem_cons_of_mem _ h2))

/-- A batch of plain transfers over a well-formed tree, each between two different
addresses and paid by a stored account: it returns true with the state of the
sequential fold when the fold succeeds, and false otherwise. -/
theorem NewSubTransaction_plain (header : Header) (txs : List SubTransaction)
    (hwf : header.StatTree.WellFormed)
    (hplain : ∀ tx ∈ txs, tx.From.length = 32 ∧ tx.To.length = 32 ∧ tx.From ≠ tx.To)
    (hpayer : ∀ tx ∈ txs, header.GetAccount tx.From ≠ none) :
    (∀ st1, seqApply EKTAddress GasAddress header.StatTree txs = some st1 →
      ∃ h1, NewSubTransaction EKTAddress GasAddress header txs = some (true, h1) ∧
        h1 = { header with StatTree := h1.StatTree } ∧
        ∀ address, h1.GetAccount address = st1.GetValue address) ∧
    (seqApply EKTAddress GasAddress header.StatTree txs = none →
      NewSubTransaction EKTAddress GasAddress header txs = some (false, header)) := by
  have hsim0 : SimOk header [] [] header.StatTree := by
    refine ⟨by simp, ?_, fun _ _ => rfl⟩
    intro k p hk
    simp [amGet] at hk
  obtain ⟨hgo, hstop⟩ := subTxLoop_plain EKTAddress GasAddress header hwf txs [] []
    header.StatTree hsim0 hplain hpayer
  constructor
  · intro st1 hst1
    obtain ⟨heap1, m1, hloop, hnd, hent, hoth⟩ := hgo st1 hst1
    obtain ⟨t, hfl, hread⟩ := flush_spec heap1 m1 header.StatTree hnd (by
      intro k p hkp
      obtain ⟨a, ha, hk, _⟩ := hent k p (amGet_of_mem_nodup hnd hkp)
      exact ⟨a, ha, hk⟩)
    refine ⟨{ header with StatTree := t }, by simp [NewSubTransaction, hloop, hfl], rfl, ?_⟩
    intro address
    show amGet address t = st1.GetValue address
    rw [hread address]
    cases hg : amGet (EncodeToString address) m1 with
    | some p =>
      obtain ⟨a, ha, hk, hsta⟩ := hent _ p hg
      rw [EncodeToString_injective hk] at hsta
      simp only [ha, hsta]
    | none =>
      simp only
      exact (hoth address hg).symm
  · intro hnone
    simp [NewSubTransaction, hstop hnone]

/-! ## C16: a batch is applied sequentially over working copies -/

/-- C16. Over a well-formed state tree, for a batch of plain transfers (32-byte
`from` and `to`) in which every sub-transaction has `from` different from `to` and
every payer is stored: `NewSubTransaction` returns true if and only if `HandleTx`
succeeds at every step of the fold over the running account state, in input order;
on success the stored accounts are those of the fold at every address; otherwise
the call returns false. -/
theorem C16_batch_sequential (header : Header) (txs : List SubTransaction)
    (hwf : header.StatTree.WellFormed)
    (hplain : ∀ tx ∈ txs, tx.From.length = 32 ∧ tx.To.length = 32 ∧ tx.From ≠ tx.To)
    (hpayer : ∀ tx ∈ txs, header.GetAccount tx.From ≠ none) :
    ((∃ h1, NewSubTransaction EKTAddress GasAddress header txs = some (true, h1)) ↔
      (seqApply EKTAddress GasAddress header.StatTree txs).isSome = true) ∧
    (∀ st1, seqApply EKTAddress GasAddress header.StatTree txs = some st1 →
      ∃ h1, NewSubTransaction EKTAddress GasAddress header txs = some (true, h1) ∧
        ∀ address, h1.GetAccount address = st1.GetValue address) ∧
    (seqApply EKTAddress GasAddress header.StatTree txs = none →
      NewSubTransaction EKTAddress GasAddress header txs = some (false, header)) := by
  obtain ⟨hgo, hstop⟩ :=
    NewSubTransaction_plain EKTAddress GasAddress header txs hwf hplain hpayer
  refine ⟨?_, ?_, hstop⟩
  · constructor
    · rintro ⟨h1, hh1⟩
      cases hs : seqApply EKTAddress GasAddress header.StatTree txs with
      | some st1 => rfl
      | none =>
        rw [hstop hs] at hh1
        simp at hh1
    · intro hs
      cases hs2 : seqApply EKTAddress GasAddress header.StatTree txs with
      | none => simp [hs2] at hs
      | some st1 =>
        obtain ⟨h1, hh1, _⟩ := hgo st1 hs2
        exact ⟨h1, hh1⟩
  · intro st1 hs
    obtain ⟨h1, hh1, _, hread⟩ := hgo st1 hs
    exact ⟨h1, hh1, hread⟩

/-- A tree whose every entry carries its key as address is well formed. -/
theorem wellFormed_of_entries (t : MTP) (h : ∀ e ∈ t, e.2.Address = e.1) : t.WellFormed := by
  intro key account hget
  exact h (key, account) (mem_keys_of_amGet hget)

/-- The sample batch state is well formed. -/
theorem sampleHeader_wellFormed : sampleHeader.StatTree.WellFormed :=
  wellFormed_of_entries _ (by decide)

/-- C16 on the state where A holds 100 and B holds 5: in `[A→B 10, B→C y]` the
second step sees B with 15, so the batch returns true for `y = 14` and false for
`y = 15`. -/
theorem C16_batch_sequential_witness :
    sampleHeader.StatTree.WellFormed ∧
    (∃ h1, NewSubTransaction "ekt" "gas" sampleHeader
        [⟨addr 1, addr 2, "ekt", 10⟩, ⟨addr 2, addr 3, "ekt", 14⟩] = some (true, h1)) ∧
    NewSubTransaction "ekt" "gas" sampleHeader
        [⟨addr 1, addr 2, "ekt", 10⟩, ⟨addr 2, addr 3, "ekt", 15⟩] = some (false, sampleHeader) :=
  ⟨sampleHeader_wellFormed,
   (C16_batch_sequential "ekt" "gas" sampleHeader
      [⟨addr 1, addr 2, "ekt", 10⟩, ⟨addr 2, addr 3, "ekt", 14⟩] sampleHeader_wellFormed
      (by decide) (by decide)).1.2 (by decide),
   (C16_batch_sequential "ekt" "gas" sampleHeader
      [⟨addr 1, addr 2, "ekt", 10⟩, ⟨addr 2, addr 3, "ekt", 15⟩] sampleHeader_wellFormed
      (by decide) (by decide)).2.2 (by decide)⟩

/-- C17 on the batch `[A→B 10, B→C 14]` over the sample state: the call returns
true, the loop ends with a working-copy map, and the address `09..09`, which the
batch does not name, reads as before. -/
theorem C17_commit_exact_witness :
    sampleHeader.StatTree.WellFormed ∧
    NewSubTransaction "ekt" "gas" sampleHeader
        [⟨addr 1, addr 2, "ekt", 10⟩, ⟨addr 2, addr 3, "ekt", 14⟩]
      = some (true, headerOf [(addr 1, plainAccount (addr 1) 90 0 0),
          (addr 2, plainAccount (addr 2) 1 0 0), (addr 3, plainAccount (addr 3) 14 0 0)]) ∧
    ∃ heap m, subTxLoop "ekt" "gas" sampleHeader ([], [])
        [⟨addr 1, addr 2, "ekt", 10⟩, ⟨addr 2, addr 3, "ekt", 14⟩] = Iter.next (heap, m) ∧
      (headerOf [(addr 1, plainAccount (addr 1) 90 0 0),
          (addr 2, plainAccount (addr 2) 1 0 0),
          (addr 3, plainAccount (addr 3) 14 0 0)]).GetAccount (addr 9)
        = sampleHeader.GetAccount (addr 9) :=
  ⟨sampleHeader_wellFormed, by decide,
   (C17_commit_exact "ekt" "gas" sampleHeader _
      [⟨addr 1, addr 2, "ekt", 10⟩, ⟨addr 2, addr 3, "ekt", 14⟩] sampleHeader_wellFormed
      (by decide)).imp (fun _ h => h.imp (fun _ h2 => ⟨h2.1, h2.2.2.1 (addr 9) (by decide)⟩))⟩

/-! ## C11: an unknown plain recipient is created -/

/-- C11. Over a well-formed state tree, with A stored, B a 32-byte address that is
not stored, and A holding more than `amount` of the native token: the batch of the
one native-token transfer of `amount` from A to B returns true; afterwards B
exists and reads as a new account with amount `amount` (and gas 0), and A reads as
before with its amount lower by `amount` (`int64` subtraction, exact whenever
representable). -/
theorem C11_recipient_synthesized (header : Header) (A B : Bytes) (a : Account) (amount : Int)
    (hwf : header.StatTree.WellFormed) (hA : A.length = 32) (hB : B.length = 32)
    (ha : header.GetAccount A = some a) (hb : header.ExistAddress B = false)
    (hamt : a.Amount > amount) (hr : inInt64 amount) :
    ∃ h1, NewSubTransaction EKTAddress GasAddress header [⟨A, B, EKTAddress, amount⟩]
        = some (true, h1) ∧
      h1.ExistAddress B = true ∧
      h1.GetAccount B = some { NewAccount B with Amount := amount } ∧
      ({ NewAccount B with Amount := amount } : Account).Gas = 0 ∧
      h1.GetAccount A = some { a with Amount := wrap64 (a.Amount - amount) } ∧
      (inInt64 (a.Amount - amount) →
        h1.GetAccount A = some { a with Amount := a.Amount - amount }) := by
  have hbn : header.GetAccount B = none := by
    simp only [Header.ExistAddress, MTP.ContainsKey] at hb
    simp only [Header.GetAccount, MTP.GetValue]
    cases hg : amGet B header.StatTree with
    | none => rfl
    | some x => simp [hg] at hb
  have hAB : A ≠ B := by
    intro e
    rw [e, hbn] at ha
    cases ha
  have hplain : ∀ tx ∈ [(⟨A, B, EKTAddress, amount⟩ : SubTransaction)],
      tx.From.length = 32 ∧ tx.To.length = 32 ∧ tx.From ≠ tx.To := by
    intro tx htx
    rw [List.mem_singleton] at htx
    subst htx
    exact ⟨hA, hB, hAB⟩
  have hpayer : ∀ tx ∈ [(⟨A, B, EKTAddress, amount⟩ : SubTransaction)],
      header.GetAccount tx.From ≠ none := by
    intro tx htx
    rw [List.mem_singleton] at htx
    subst htx
    show header.GetAccount A ≠ none
    rw [ha]
    exact fun h => nomatch h
  obtain ⟨hgo, _⟩ := NewSubTransaction_plain EKTAddress GasAddress header
    [⟨A, B, EKTAddress, amount⟩] hwf hplain hpayer
  have hz : wrap64 (0 + amount) = amount := by
    rw [Int.zero_add]
    exact wrap64_of_inInt64 hr
  have hseq : seqApply EKTAddress GasAddress header.StatTree [⟨A, B, EKTAddress, amount⟩]
      = some ((header.StatTree.MustInsert A { a with Amount := wrap64 (a.Amount - amount) }).MustInsert
          B { NewAccount B with Amount := amount }) := by
    have hga : header.StatTree.GetValue A = some a := ha
    have hgb : header.StatTree.GetValue B = none := hbn
    simp only [seqApply]
    rw [seqStep_eq EKTAddress GasAddress header.StatTree ⟨A, B, EKTAddress, amount⟩ a hga]
    simp only [hgb, Option.getD_none, checkPayer, debit, credit, hA, hB, if_true, hamt,
      decide_True, NewAccount, hz]
  obtain ⟨h1, hh1, _, hread⟩ := hgo _ hseq
  have hgB : h1.GetAccount B = some { NewAccount B with Amount := amount } := by
    rw [hread B]
    exact amGet_amSet_self _ _ _
  have hgA : h1.GetAccount A = some { a with Amount := wrap64 (a.Amount - amount) } := by
    rw [hread A]
    show amGet A (amSet B _ (amSet A _ header.StatTree)) = _
    rw [amGet_amSet_ne _ _ _ _ (fun e => hAB e.symm)]
    exact amGet_amSet_self _ _ _
  refine ⟨h1, hh1, ?_, hgB, rfl, hgA, ?_⟩
  · have := hgB
    simp only [Header.GetAccount, MTP.GetValue] at this
    simp [Header.ExistAddress, MTP.ContainsKey, this]
  · intro hx
    rw [hgA, wrap64_of_inInt64 hx]

/-- C11 on the sample state: A (holding 100) pays 10 to the unknown C. -/
theorem C11_recipient_synthesized_witness :
    ∃ h1, NewSubTransaction "ekt" "gas" sampleHeader [⟨addr 1, addr 3, "ekt", 10⟩]
        = some (true, h1) ∧
      h1.ExistAddress (addr 3) = true ∧
      h1.GetAccount (addr 3) = some { NewAccount (addr 3) with Amount := 10 } :=
  (C11_recipient_synthesized "ekt" "gas" sampleHeader (addr 1) (addr 3)
    (plainAccount (addr 1) 100 0 0) 10 sampleHeader_wellFormed (by decide) (by decide)
    (by decide) (by decide) (by decide) (by decide)).imp
    (fun _ h => ⟨h.1, h.2.1, h.2.2.1⟩)

end Engine

end EKT
